import Mathlib

/-!
Verification of the variable registry and ordering engine of the `Vars`
repository (`src/freecad/vars/core/variables.py`) against its
natural-language specification.

The Python module is shallowly embedded: the FreeCAD document is a list of
`VarSet` records (the `App::VarSet` objects the module creates), Python
values carried by the `Value` property are a small dynamic type `PyScalar` /
`PyVal`, and each registry operation is a Lean function translated from the
corresponding Python function.  Fallible Python code (functions that can
raise) returns `Except String`.
-/

deriving instance DecidableEq for Except

namespace Vars

/-! ### Python value model

FreeCAD `Value` properties hold Python scalars (int, str, float, bool) or
flat lists of scalars; no nested lists occur.  Python floats are modelled as
rationals: the claims under verification never depend on IEEE rounding or on
float formatting. -/

/-- A Python scalar value as stored in a `Value` property or a list item. -/
inductive PyScalar where
  | sInt (n : Int)
  | sStr (s : String)
  | sFloat (q : Rat)
  | sBool (b : Bool)
deriving DecidableEq

/-- A Python value held by a varset `Value` property: a scalar or a flat
list of scalars. -/
inductive PyVal where
  | scalar (v : PyScalar)
  | vList (xs : List PyScalar)
deriving DecidableEq

/-- Python truthiness of a scalar (`bool(x)`). -/
def PyScalar.truthy : PyScalar → Bool
  | .sInt n => n != 0
  | .sStr s => s ≠ ""
  | .sFloat q => q != 0
  | .sBool b => b

/-- Python truthiness of a value (`if value:`). -/
def PyVal.truthy : PyVal → Bool
  | .scalar v => v.truthy
  | .vList xs => xs ≠ []

/-- Whitespace characters removed by Python `str.strip()` (ASCII range). -/
def isWs (c : Char) : Bool := c.isWhitespace

/-- Drop trailing characters satisfying `p`. -/
def dropEndWhile (p : Char → Bool) (l : List Char) : List Char :=
  ((l.reverse).dropWhile p).reverse

/-- Python `str.strip()` (ASCII whitespace trim). -/
def pyStrip (s : String) : String :=
  String.mk (dropEndWhile isWs (s.toList.dropWhile isWs))

/-- Python `str.lower()` restricted to ASCII, which is all the module uses
for case-insensitive name comparison. -/
def pyLower (s : String) : String := String.mk (s.toList.map Char.toLower)

/-- Lexicographic strict order on code-point sequences: Python string `<`. -/
def charsLt : List Char → List Char → Bool
  | [], [] => false
  | [], _ :: _ => true
  | _ :: _, [] => false
  | a :: as, b :: bs => a.toNat < b.toNat || (a.toNat = b.toNat && charsLt as bs)

/-- Lexicographic order-or-equal on code-point sequences. -/
def charsLe : List Char → List Char → Bool
  | [], _ => true
  | _ :: _, [] => false
  | a :: as, b :: bs => a.toNat < b.toNat || (a.toNat = b.toNat && charsLe as bs)

/-- Python string `<`. -/
def strLt (a b : String) : Bool := charsLt a.toList b.toList

/-- Python string `<=`. -/
def strLe (a b : String) : Bool := charsLe a.toList b.toList

/-- Python `str.endswith(suffix)`. -/
def strEndsWith (s suffix : String) : Bool :=
  List.isSuffixOf suffix.toList s.toList

/-- Python `str.startswith(pre)`. -/
def strStartsWith (s pre : String) : Bool :=
  List.isPrefixOf pre.toList s.toList

/-- Value of a nonempty all-digit character sequence, if it is one. -/
def digitsToNat (l : List Char) : Option Nat :=
  if l ≠ [] && l.all Char.isDigit then
    some (l.foldl (fun acc c => 10 * acc + (c.toNat - 48)) 0)
  else none

/-- Python `str.isidentifier()` restricted to ASCII: nonempty, first char a
letter or underscore, rest alphanumeric or underscore. -/
def isIdentifier (s : String) : Bool :=
  match s.toList with
  | [] => false
  | c :: cs => (c.isAlpha || c == '_') && cs.all (fun d => d.isAlphanum || d == '_')

/-- One step of Python `str.title()`: uppercase a letter that follows a
non-letter, lowercase a letter that follows a letter. -/
def pyTitleChar (prevAlpha : Bool) (c : Char) : Char :=
  if c.isAlpha then (if prevAlpha then c.toLower else c.toUpper) else c

/-- Recursive worker for `pyTitle`. -/
def pyTitleGo (prevAlpha : Bool) : List Char → List Char
  | [] => []
  | c :: cs => pyTitleChar prevAlpha c :: pyTitleGo c.isAlpha cs

/-- Python `str.title()` (ASCII): capitalize the first letter of every
alphabetic run, lowercase the rest. -/
def pyTitle (s : String) : String := String.mk (pyTitleGo false s.toList)

/-- Python `int(str)`: strip, optional sign, then a nonempty digit string;
anything else raises `ValueError`. -/
def parseIntPy (s : String) : Except String Int :=
  let t := (pyStrip s).toList
  let core : Option Int :=
    match t with
    | '-' :: rest => (digitsToNat rest).map (fun n => -(n : Int))
    | '+' :: rest => (digitsToNat rest).map (fun n => (n : Int))
    | _ => (digitsToNat t).map (fun n => (n : Int))
  match core with
  | some n => .ok n
  | none => .error ("invalid literal for int(): " ++ s)

/-- Decimal-fraction part of `parseFloatPy`: parse `intPart.fracPart` where
at least one side is nonempty. -/
def parseDecimal (intPart fracPart : List Char) : Option Rat :=
  if intPart = [] && fracPart = [] then none
  else
    let ip := if intPart = [] then some 0 else digitsToNat intPart
    let fp := if fracPart = [] then some 0 else digitsToNat fracPart
    match ip, fp with
    | some i, some f => some ((i : Rat) + (f : Rat) / ((10 : Rat) ^ fracPart.length))
    | _, _ => none

/-- Python `float(str)` restricted to plain decimal literals (optional sign,
digits, optional single decimal point).  Exponent notation and the special
forms `inf`/`nan` are outside the modelled fragment; no claim depends on
them. -/
def parseFloatPy (s : String) : Except String Rat :=
  let t := (pyStrip s).toList
  let signed : List Char → Option Rat := fun body =>
    match body.splitOn '.' with
    | [a] => parseDecimal a []
    | [a, b] => parseDecimal a b
    | _ => none
  let r : Option Rat :=
    match t with
    | '-' :: rest => (signed rest).map (fun q => -q)
    | '+' :: rest => signed rest
    | _ => signed t
  match r with
  | some q => .ok q
  | none => .error ("could not convert string to float: " ++ s)

/-- Python `str()` of a scalar.  `str(float)` is modelled only up to the
integral case (`q.0`); no claim depends on float formatting. -/
def pyStrOfScalar : PyScalar → String
  | .sInt n => toString n
  | .sStr s => s
  | .sBool b => if b then "True" else "False"
  | .sFloat q => if q.den = 1 then toString q.num ++ ".0" else toString q.num ++ "/" ++ toString q.den

/-- Python `int()` of a scalar; raises on non-numeric strings. -/
def pyIntOfScalar : PyScalar → Except String Int
  | .sInt n => .ok n
  | .sBool b => .ok (if b then 1 else 0)
  | .sFloat q => .ok (if 0 ≤ q then q.floor else -((-q).floor))
  | .sStr s => parseIntPy s

/-- Python `float()` of a scalar; raises on non-numeric strings. -/
def pyFloatOfScalar : PyScalar → Except String Rat
  | .sInt n => .ok (n : Rat)
  | .sBool b => .ok (if b then 1 else 0)
  | .sFloat q => .ok q
  | .sStr s => parseFloatPy s

/-! ### Delta values and sentinels

`reorder` / `reorder_group` receive a Python number that is either a finite
relative move or one of the two infinity sentinels (`float("-inf")`,
`float("inf")`). -/

/-- A reorder delta: finite integer move or an infinity sentinel. -/
inductive ExtInt where
  | negInf
  | fin (d : Int)
  | posInf
deriving DecidableEq

/-- `seek = SortKey + delta` (Python addition of an int and a possibly
infinite float). -/
def seekOf (base : Int) : ExtInt → ExtInt
  | .negInf => .negInf
  | .fin d => .fin (base + d)
  | .posInf => .posInf

/-- The Python comparison `pos >= seek` for a loop index `pos`. -/
def trig (seek : ExtInt) (pos : Nat) : Bool :=
  match seek with
  | .negInf => true
  | .fin d => d ≤ (pos : Int)
  | .posInf => false

/-- The comparison `seek ≥ j` on the finite bound `j`, used to phrase when a
reorder target falls at or past the last position. -/
def seekGe (seek : ExtInt) (j : Int) : Bool :=
  match seek with
  | .negInf => false
  | .fin d => j ≤ d
  | .posInf => true

/-! ### The document model

An `App::VarSet` object created by this module, with exactly the properties
`create_var` installs.  The FreeCAD editor-mode bitmask of the `Value`
property only ever holds the `ReadOnly` (bit 1) and `Hidden` (bit 2) flags
here, so it is modelled as two booleans. -/

/-- The editor-mode bitmask of the `Value` property (bits 1 = ReadOnly,
2 = Hidden). -/
structure EdMode where
  ro : Bool
  hid : Bool
deriving DecidableEq

/-- A persisted variable record (one `App::VarSet` document object). -/
structure VarSet where
  /-- `obj.Name`: stable machine identifier, starts with `XVar_`. -/
  internalName : String
  /-- `obj.Label`: the user-facing variable name. -/
  label : String
  /-- `obj.Label2` mirror of the description (when the host supports it). -/
  label2 : String
  /-- Type id of the dynamic `Value` property. -/
  varType : String
  /-- Current value of the `Value` property. -/
  value : PyVal
  /-- Enumeration options of the `Value` property (empty for non-enums). -/
  enumOptions : List String
  /-- Documentation string attached to the `Value` property. -/
  docOfValue : String
  /-- The `Description` string property. -/
  descriptionProp : String
  /-- The `VarGroup` string property. -/
  varGroup : String
  /-- The `SortKey` integer property (row key within the group). -/
  sortKey : Int
  /-- The `GroupSortKey` integer property (key of the variable's group). -/
  groupSortKey : Int
  /-- The `Hidden` bool property. -/
  hidden : Bool
  /-- Editor mode of the `Value` property. -/
  edMode : EdMode
  /-- Expression bound to `Value` in the expression engine, if any. -/
  expr : Option String
deriving DecidableEq

/-- A FreeCAD document, restricted to the `App::VarSet` objects this module
manages (other document objects never enter any of the translated code
paths).  `counter` drives fresh `Name` generation. -/
structure Doc where
  objects : List VarSet
  counter : Nat
deriving DecidableEq

/-- `Variable.group`: `self.varset.VarGroup or "Default"`. -/
def groupOf (v : VarSet) : String :=
  if v.varGroup = "" then "Default" else v.varGroup

/-- `is_var(obj)`: a varset object of this module (the model only stores
`App::VarSet` objects, so only the name-prefix test remains). -/
def is_var (v : VarSet) : Bool := strStartsWith v.internalName "XVar_"

/-- `sanitize_var_name(name)`: strip, then raise `ValueError` unless the
result is a nonempty identifier. -/
def sanitize_var_name (name : String) : Except String String :=
  let n := pyStrip name
  if n = "" || !isIdentifier n then .error ("Invalid var name: " ++ n)
  else .ok n

/-- `get_varset(name, doc)`: first document object with the given label
whose name marks it as a variable (all model objects carry `Value`). -/
def get_varset (doc : Doc) (name : String) : Option VarSet :=
  doc.objects.find? (fun o => o.label = name && is_var o)

/-- `existing_var_name(name, doc)`: case-insensitive search among live
variables, returning the stored label when found. -/
def existing_var_name (doc : Doc) (name : String) : Option String :=
  (doc.objects.find? (fun o => is_var o && pyLower o.label = pyLower name)).map
    (fun o => o.label)

/-- Python truthiness of `existing_var_name`'s result (`None` and the empty
string are falsy). -/
def truthyStrOpt : Option String → Bool
  | none => false
  | some s => s ≠ ""

/-- The accumulator-passing fold underlying `groupsData`. -/
def groupsDataFrom (acc : List (String × Int)) (objs : List VarSet) :
    List (String × Int) :=
  objs.foldl
    (fun acc o =>
      if (acc.lookup (groupOf o)).isSome then acc
      else acc ++ [(groupOf o, o.groupSortKey)])
    acc

/-- First-encountered `GroupSortKey` per group name, scanning the
document's variables in storage order: the common core of
`_get_or_assign_initial_group_sort_key` and `reorder_group`. -/
def groupsData (objs : List VarSet) : List (String × Int) :=
  groupsDataFrom [] objs

/-- `_get_or_assign_initial_group_sort_key(group_name, doc)`: reuse the
first-encountered key of an existing group, else `max(existing keys) + 1`
(which is `0` when no variables exist). -/
def get_or_assign_initial_group_sort_key (group_name : String) (doc : Doc) : Int :=
  let processed := groupsData (doc.objects.filter is_var)
  match processed.lookup group_name with
  | some k => k
  | none => (processed.foldl (fun m p => max m p.2) (-1)) + 1

/-! ### Typed property assignment

FreeCAD raises `TypeError` when a value of the wrong shape is assigned to a
typed property; the translated code relies on this (sometimes suppressing
the error, sometimes letting it propagate). -/

/-- Default value a freshly added `Value` property of the given type holds
before any assignment.  Quantity-like scalar types (`Length`, …) are
modelled as floats. -/
def default_value (t : String) (opts : List String) : PyVal :=
  if t = "App::PropertyInteger" then .scalar (.sInt 0)
  else if t = "App::PropertyString" then .scalar (.sStr "")
  else if t = "App::PropertyBool" then .scalar (.sBool false)
  else if t = "App::PropertyEnumeration" then .scalar (.sStr ((opts.head?).getD ""))
  else if strEndsWith t "List" then .vList []
  else .scalar (.sFloat 0)

/-- Whether assigning `x` to a `Value` property of type `t` succeeds
(otherwise FreeCAD raises `TypeError`). -/
def type_ok (t : String) (opts : List String) (x : PyVal) : Bool :=
  if t = "App::PropertyInteger" then
    match x with
    | .scalar (.sInt _) => true
    | .scalar (.sBool _) => true
    | _ => false
  else if t = "App::PropertyString" then
    match x with
    | .scalar (.sStr _) => true
    | _ => false
  else if t = "App::PropertyBool" then
    match x with
    | .scalar (.sBool _) => true
    | .scalar (.sInt _) => true
    | _ => false
  else if t = "App::PropertyEnumeration" then
    match x with
    | .scalar (.sStr s) => opts.contains s
    | _ => false
  else if t = "App::PropertyIntegerList" then
    match x with
    | .vList xs => xs.all (fun e => match e with | .sInt _ => true | .sBool _ => true | _ => false)
    | _ => false
  else if t = "App::PropertyStringList" then
    match x with
    | .vList xs => xs.all (fun e => match e with | .sStr _ => true | _ => false)
    | _ => false
  else if t = "App::PropertyFloatList" then
    match x with
    | .vList xs => xs.all (fun e => match e with | .sFloat _ => true | .sInt _ => true | .sBool _ => true | _ => false)
    | _ => false
  else if strEndsWith t "List" then
    match x with
    | .vList _ => true
    | _ => false
  else
    match x with
    | .scalar (.sFloat _) => true
    | .scalar (.sInt _) => true
    | _ => false

/-- `varset.Value = x`: typed assignment, raising `TypeError` on shape
mismatch. -/
def assign_value (v : VarSet) (x : PyVal) : Except String VarSet :=
  if type_ok v.varType v.enumOptions x then .ok { v with value := x }
  else .error "TypeError: value does not match property type"

/-- `(group or "Default").title()`: the stored form of a group argument. -/
def normalized_group (group : String) : String :=
  pyTitle (if group = "" then "Default" else group)

/-! ### `create_var` -/

/-- `create_var(...)`: create a fresh varset for a new variable.  Fails
(`False`) on a case-insensitive name collision, raises on an invalid name
or an options/type mismatch.  `get_unique_name` (in `freecad.vars.utils`,
not part of the sources under verification) is modelled from the spec as a
fresh machine-generated `XVar_`-prefixed identifier driven by a document
counter.  Callable options (evaluated at line 119-120 of the source) are
outside the modelled fragment: `options` is a concrete list or `None`. -/
def create_var (doc : Doc) (name : String) (var_type : String)
    (value : Option PyVal) (options : Option (List String))
    (description : String) (expression : Option String) (group : String) :
    Except String (Doc × Bool) :=
  match sanitize_var_name name with
  | .error e => .error e
  | .ok name =>
  if truthyStrOpt (existing_var_name doc name) then
    .ok (doc, false)
  else if var_type = "App::PropertyEnumeration" && options.isNone then
    .error "options must be provided if var_type is App::PropertyEnumeration"
  else if var_type ≠ "App::PropertyEnumeration" && options.isSome then
    .error "options must be None if var_type is not App::PropertyEnumeration"
  else
  let opts := options.getD []
  let varset0 : VarSet :=
    { internalName := "XVar_" ++ toString doc.counter
      label := name
      label2 := description
      varType := var_type
      value := default_value var_type opts
      enumOptions := opts
      docOfValue := description
      descriptionProp := description
      varGroup := normalized_group group
      sortKey := 0
      -- `GroupSortKey` is added with FreeCAD's integer default 0 and only
      -- then recomputed below, after the varset is already in the document.
      groupSortKey := 0
      hidden := false
      edMode := ⟨false, false⟩
      expr := none }
  let varset1E : Except String VarSet :=
    if truthyStrOpt expression then
      -- `varset.setExpression("Value", expression)`; the recompute that
      -- follows is host work and does not change the registry state.
      .ok { varset0 with expr := expression }
    else
      match value with
      | some x => assign_value varset0 x
      | none => .ok varset0
  match varset1E with
  | .error e => .error e
  | .ok varset1 =>
  -- The varset was added to the document by `doc.addObject` before
  -- `_get_or_assign_initial_group_sort_key` runs, so the scan sees it.
  let doc1 : Doc := { objects := doc.objects ++ [varset1], counter := doc.counter + 1 }
  let gsk := get_or_assign_initial_group_sort_key group doc1
  let doc2 : Doc :=
    { objects := doc.objects ++ [{ varset1 with groupSortKey := gsk }]
      counter := doc.counter + 1 }
  .ok (doc2, true)

/-! ### In-place mutation of a resolved varset

The `Variable` proxy resolves its backing object through `get_varset`
(first label match); mutations through the proxy therefore rewrite the
first matching object in the document. -/

/-- Replace the first list element satisfying `p` by `f` of it. -/
def update_first (p : VarSet → Bool) (f : VarSet → VarSet) : List VarSet → List VarSet
  | [] => []
  | o :: os => if p o then f o :: os else o :: update_first p f os

/-- Rewrite the varset that `get_varset doc name` resolves to. -/
def update_varset (doc : Doc) (name : String) (f : VarSet → VarSet) : Doc :=
  { doc with objects := update_first (fun o => o.label = name && is_var o) f doc.objects }

/-- Comma-space join of rendered list items. -/
def joinComma : List String → String
  | [] => ""
  | [s] => s
  | s :: rest => s ++ ", " ++ joinComma rest

/-- `str()` of an arbitrary value; the list form is an approximate repr (no
claim depends on stringifying lists). -/
def pyStrOfVal : PyVal → String
  | .scalar a => pyStrOfScalar a
  | .vList xs => "[" ++ joinComma (xs.map pyStrOfScalar) ++ "]"

/-- `type(varset.Value)(value)`: construct a value of the type of
`template` (a fresh property default) from `x`, raising as Python would. -/
def py_construct (template : PyVal) (x : PyVal) : Except String PyVal :=
  match template with
  | .scalar (.sInt _) =>
      match x with
      | .scalar a => (pyIntOfScalar a).map (fun n => .scalar (.sInt n))
      | .vList _ => .error "int() argument must not be a list"
  | .scalar (.sStr _) => .ok (.scalar (.sStr (pyStrOfVal x)))
  | .scalar (.sFloat _) =>
      match x with
      | .scalar a => (pyFloatOfScalar a).map (fun q => .scalar (.sFloat q))
      | .vList _ => .error "float() argument must not be a list"
  | .scalar (.sBool _) => .ok (.scalar (.sBool x.truthy))
  | .vList _ =>
      match x with
      | .vList xs => .ok (.vList xs)
      | .scalar (.sStr s) => .ok (.vList (s.toList.map (fun c => .sStr (String.mk [c]))))
      | .scalar _ => .error "argument is not iterable"

/-- `convert_list_type(data, new_type)`: element-wise cast of a whole list
to the target element type (a raising element aborts the whole
comprehension, exactly as in Python). -/
def convert_list_type (data : List PyScalar) (new_type : String) :
    Except String (List PyScalar) :=
  if data = [] then .ok []
  else if new_type = "App::PropertyStringList" then
    .ok (data.map (fun e => .sStr (pyStrOfScalar e)))
  else if new_type = "App::PropertyIntegerList" then
    (data.mapM pyIntOfScalar).map (List.map PyScalar.sInt)
  else if new_type = "App::PropertyFloatList" then
    (data.mapM pyFloatOfScalar).map (List.map PyScalar.sFloat)
  else .ok []

/-- `varset.removeProperty("Value"); varset.addProperty(new_type, "Value",
"", varset.Description)`: swap the `Value` property for a fresh one of the
new type. -/
def replace_value_property (v : VarSet) (new_type : String) : VarSet :=
  { v with varType := new_type
           value := default_value new_type []
           enumOptions := []
           docOfValue := v.descriptionProp }

/-- `varset.Value = x` under `contextlib.suppress(Exception)`: keep the
fresh default when the assignment raises. -/
def assign_suppressed (v : VarSet) (x : Except String PyVal) : VarSet :=
  match x with
  | .error _ => v
  | .ok y =>
      match assign_value v y with
      | .ok v2 => v2
      | .error _ => v

/-- `set_var_type(name, new_type, doc, converter)`.  The result pairs the
post-call document (Python mutates in place, so it is meaningful even when
an exception escapes) with the returned bool or the raised error.
`supported` stands for the host's `varset.supportedProperties()`. -/
def set_var_type (supported : List String) (doc : Doc) (name : String)
    (new_type : String) (converter : Option (PyVal → Except String PyVal)) :
    Doc × Except String Bool :=
  match get_varset doc name with
  | none => (doc, .ok false)
  | some varset =>
    if ¬ supported.contains new_type then
      (doc, .error ("Invalid var type: " ++ new_type))
    else
      let old_type := varset.varType
      if old_type = new_type then (doc, .ok false)
      else
        let write := fun (v : VarSet) => update_varset doc name (fun _ => v)
        match converter with
        | some conv =>
            -- custom converter, applied under suppress to the old value
            let v1 := replace_value_property varset new_type
            let v2 :=
              if varset.value.truthy then assign_suppressed v1 (conv varset.value)
              else v1
            (write v2, .ok true)
        | none =>
          if old_type = new_type ++ "List" then
            -- list to base: use first element if any (assignment unsuppressed)
            let v1 := replace_value_property varset new_type
            match varset.value with
            | .vList (x :: _) =>
                match assign_value v1 (.scalar x) with
                | .ok v2 => (write v2, .ok true)
                | .error e => (write v1, .error e)
            | _ => (write v1, .ok true)
          else if new_type = old_type ++ "List" then
            -- base to list: wrap truthy value (assignment unsuppressed)
            let v1 := replace_value_property varset new_type
            if varset.value.truthy then
              match varset.value with
              | .scalar x =>
                  match assign_value v1 (.vList [x]) with
                  | .ok v2 => (write v2, .ok true)
                  | .error e => (write v1, .error e)
              | .vList _ =>
                  -- `[value]` would nest a list inside a list: FreeCAD
                  -- rejects the assignment
                  (write v1, .error "TypeError: value does not match property type")
            else (write v1, .ok true)
          else if strEndsWith old_type "List" && strEndsWith new_type "List" then
            -- list to list, conversion and assignment under suppress
            let v1 := replace_value_property varset new_type
            match varset.value with
            | .vList data =>
                let v2 := assign_suppressed v1
                  ((convert_list_type data new_type).map PyVal.vList)
                (write v2, .ok true)
            | _ => (write v1, .ok true)
          else
            -- raw type conversion under suppress
            let v1 := replace_value_property varset new_type
            let v2 :=
              if varset.value.truthy then
                assign_suppressed v1 (py_construct v1.value varset.value)
              else v1
            (write v2, .ok true)

/-! ### Editor mode, simple setters, group setter -/

/-- `varset.getEditorMode("Value")`: the flag names encoded in the mask. -/
def get_editor_mode (m : EdMode) : List String :=
  (if m.ro then ["ReadOnly"] else []) ++ (if m.hid then ["Hidden"] else [])

/-- One entry of the `modes` table of the `editor_mode` setter: the mask
update a flag keyword denotes (`None` for unknown keywords, which fold as
`(or, 0)`, the identity). -/
def ed_op : String → Option (EdMode → EdMode)
  | "ReadOnly" => some (fun m => { m with ro := true })
  | "Hidden" => some (fun m => { m with hid := true })
  | "-ReadOnly" => some (fun m => { m with ro := false })
  | "-Hidden" => some (fun m => { m with hid := false })
  | _ => none

/-- The `editor_mode` setter: rebuild the mask from the current flags, then
apply the requested flag updates (read-modify-write, unrelated flags kept). -/
def set_editor_mode (m : EdMode) (value : List String) : EdMode :=
  let ops := (get_editor_mode m).map ed_op ++ value.map ed_op
  ops.foldl (fun acc o => (o.getD id) acc) ⟨false, false⟩

/-- The `read_only` setter: `editor_mode = "ReadOnly"` / `"-ReadOnly"`. -/
def set_read_only (v : VarSet) (ro : Bool) : VarSet :=
  { v with edMode := set_editor_mode v.edMode [if ro then "ReadOnly" else "-ReadOnly"] }

/-- `set_var_group(name, group, doc)` via the `Variable.group` setter: only
the `VarGroup` string is rewritten (title-cased, empty defaults to
`"Default"`); the variable's `GroupSortKey` is not touched.  Raises when
the name is invalid or the variable does not exist. -/
def set_var_group (doc : Doc) (name : String) (group : String) : Except String Doc :=
  match sanitize_var_name name with
  | .error e => .error e
  | .ok nm =>
    match get_varset doc nm with
    | none => .error ("Variable " ++ nm ++ " does not exists")
    | some _ =>
        .ok (update_varset doc nm (fun v =>
          { v with varGroup := normalized_group group }))

/-! ### Import

`core/files.py` (the `VarInfoData` record and file codec) and
`core/properties.py` (`get_supported_property_types`) are not among the
sources under verification; the record layout is modelled from the spec and
the supported-type set is a parameter. -/

/-- Modelled from the spec: one portable record of the serialization file
(`files.VarInfoData`; `core/files.py` is not in the sources), with the
fields `{type, name, value, internal_id, description, group, expression,
options, read_only, hidden, sort_key}` and `options` present iff the type
is an enumeration. -/
structure VarInfoData where
  type : String
  name : String
  value : Option PyVal
  internal_name : String
  description : String
  group : String
  expression : Option String
  options : Option (List String)
  read_only : Bool
  hidden : Bool
  sort_key : Int
deriving DecidableEq

/-- `doc_var.value = x` inside import's `try`/`except`: any failure
(unresolvable variable or typed-assignment error) is absorbed. -/
def try_set_value (doc : Doc) (nm : String) (x : PyVal) : Doc :=
  match get_varset doc nm with
  | none => doc
  | some v =>
      match assign_value v x with
      | .ok v2 => update_varset doc nm (fun _ => v2)
      | .error _ => doc

/-- Processing of one import record (the body of the `for var in variables`
loop of `import_variables`).  An `.error` result is an exception escaping
the loop body; no document mutation precedes any raising point. -/
def import_record (supported : List String) (doc : Doc) (var : VarInfoData) :
    Except String Doc :=
  if ¬ supported.contains var.type then
    -- unsupported type: diagnostic, record skipped
    .ok doc
  else
    -- `Variable(doc, var.name)` sanitizes the name and may raise
    match sanitize_var_name var.name with
    | .error e => .error e
    | .ok nm =>
    let skip :=
      match get_varset doc nm with
      | some v0 => v0.varType != var.type
      | none => false
    if skip then
      -- existing variable of a different type: diagnostic, record skipped
      .ok doc
    else
      let doc1E : Except String Doc :=
        match get_varset doc nm with
        | some _ => .ok doc
        | none =>
            -- `create_if_not_exists` (default value None); a raise escapes
            (create_var doc nm var.type none var.options var.description
              var.expression var.group).map (fun r => r.1)
      match doc1E with
      | .error e => .error e
      | .ok doc1 =>
      let doc2 :=
        match var.value with
        | some x => if truthyStrOpt var.expression then doc1 else try_set_value doc1 nm x
        | none => doc1
      -- `doc_var.read_only = ...` resolves the varset and raises when the
      -- variable still does not exist (create_var returned False)
      match get_varset doc2 nm with
      | none => .error ("Variable " ++ nm ++ " does not exists")
      | some _ =>
          let doc3 := update_varset doc2 nm (fun v => set_read_only v var.read_only)
          let doc4 := update_varset doc3 nm (fun v => { v with hidden := var.hidden })
          let doc5 := update_varset doc4 nm (fun v => { v with sortKey := var.sort_key })
          .ok doc5

/-- `import_variables`: process records in order; an exception escaping one
record's processing propagates and aborts the remaining records (`false`
marks the aborted run, pairing the document state at the raise). -/
def import_variables (supported : List String) (recs : List VarInfoData) (doc : Doc) :
    Doc × Bool :=
  match recs with
  | [] => (doc, true)
  | r :: rest =>
      match import_record supported doc r with
      | .ok d2 => import_variables supported rest d2
      | .error _ => (doc, false)

/-! ### The ordering engine

`Variable.reorder` and `reorder_group`, translated from the source.  The
`Variable` proxies produced by `get_vars` collapse to the underlying
objects (labels are unique in every state the registry itself produces);
theorems that depend on a unique resolution carry an explicit
distinctness hypothesis on internal names. -/

/-- Insert `a` before the first element `b` with `le a b` (the insertion
step of a stable sort). -/
def ordered_insert (le : α → α → Bool) (a : α) : List α → List α
  | [] => [a]
  | b :: l => if le a b then a :: b :: l else b :: ordered_insert le a l

/-- Stable insertion sort: the model of Python's stable `sorted`.  An
element is placed before exactly the later elements it is strictly below,
so for a total preorder `le` this computes the same list as any stable
sort. -/
def stable_sort (le : α → α → Bool) : List α → List α
  | [] => []
  | a :: l => ordered_insert le a (stable_sort le l)

/-- The `Variable.__lt__` comparison: lexicographic order-or-equal on the
`Variable.sort_key` triple `(group, SortKey, name)`. -/
def row_le (a b : VarSet) : Bool :=
  if groupOf a = groupOf b then
    if a.sortKey = b.sortKey then strLe a.label b.label
    else decide (a.sortKey < b.sortKey)
  else strLt (groupOf a) (groupOf b)

/-- `sorted(v for v in get_vars() if v.group == group)`: the group's
members in the current `(group, SortKey, name)` order. -/
def sorted_group_vars (doc : Doc) (g : String) : List VarSet :=
  stable_sort row_le (doc.objects.filter (fun o => is_var o && groupOf o = g))

/-- The assignment list produced by a `for pos, var in enumerate(...)`
renumbering loop: entry `(var.internal_name, f (i + pos))` for each
member. -/
def keyedFrom (f : Nat → Int) : List VarSet → Nat → List (String × Int)
  | [], _ => []
  | v :: rest, i => (v.internalName, f i) :: keyedFrom f rest (i + 1)

/-- Apply a batch of `_set_sort_key` writes, addressed by internal name. -/
def apply_row_keys (doc : Doc) (asg : List (String × Int)) : Doc :=
  { doc with objects := doc.objects.map (fun o =>
      match asg.lookup o.internalName with
      | some k => { o with sortKey := k }
      | none => o) }

/-- The second loop of `Variable.reorder`: walk the remaining group members
with state `(offset, ins)`, record each member's new key `pos + offset`,
and return the final `ins`. -/
def reorder_loop (seek : ExtInt) :
    List VarSet → Nat → Nat → Int → List (String × Int) × Int
  | [], _, _, ins => ([], ins)
  | v :: rest, pos, offset, ins =>
      let st : Int × Nat :=
        if trig seek pos && offset == 0 then ((pos : Int), 1) else (ins, offset)
      let r := reorder_loop seek rest (pos + 1) st.2 st.1
      ((v.internalName, (pos : Int) + (st.2 : Int)) :: r.1, r.2)

/-- `Variable.reorder(delta)` for the variable backed by the object named
`iname`: renumber the group snapshot densely, then remove the variable and
reinsert it at `SortKey + delta`, clamped below by 0; when the target falls
past all remaining members the variable receives key `len(group_vars)`. -/
def Variable.reorder (doc : Doc) (iname : String) (delta : ExtInt) : Doc :=
  match doc.objects.find? (fun o => o.internalName = iname) with
  | none => doc
  | some self =>
      let g := groupOf self
      let group_vars := sorted_group_vars doc g
      -- first pass: renumber the snapshot densely in its current order
      let doc1 := apply_row_keys doc (keyedFrom (fun i => (i : Int)) group_vars 0)
      -- `seek = self.varset.SortKey + delta` reads the renumbered key back
      let base : Int :=
        ((doc1.objects.find? (fun o => o.internalName = iname)).map
          (fun o => o.sortKey)).getD 0
      let seek := seekOf base delta
      let others := group_vars.filter (fun v => v.internalName ≠ iname)
      let lr := reorder_loop seek others 0 0 (-1)
      let self_key : Int := if lr.2 > -1 then lr.2 else (group_vars.length : Int)
      apply_row_keys doc1 (lr.1 ++ [(iname, self_key)])

/-- The `(key, name)` sorting relation of `reorder_group`'s snapshot. -/
def group_le (a b : String × Int) : Bool :=
  if a.2 = b.2 then strLe a.1 b.1 else decide (a.2 < b.2)

/-- `reorder_group(group_name_to_move, delta, doc)`: snapshot one key per
group (first encountered), sort by `(key, name)`, move the target group to
`clamp(index + delta, 0, m-1)` (sentinels map to the ends), then give every
variable of every group its group's index in the new order.  Returns the
document unchanged when the target position equals the current one.  The
missing-`GroupSortKey` repair path of the source (an `AttributeError`
handler) is dead in the model, where the property always exists. -/
def reorder_group (doc : Doc) (group_name_to_move : String) (delta : ExtInt) :
    Doc × Bool :=
  let groups_data := groupsData (doc.objects.filter is_var)
  if groups_data = [] then (doc, false)
  else
    let sorted_groups := stable_sort group_le groups_data
    match sorted_groups.enum.find? (fun p => p.2.1 = group_name_to_move) with
    | none => (doc, false)
    | some cur_item =>
        let cur := cur_item.1
        let m := sorted_groups.length
        let new_i : Int :=
          match delta with
          | .negInf => 0
          | .posInf => (m : Int) - 1
          | .fin d => (cur : Int) + d
        let new_pos : Nat := (max 0 (min new_i ((m : Int) - 1))).toNat
        if new_pos = cur then (doc, false)
        else
          let new_order := (sorted_groups.eraseIdx cur).insertIdx new_pos cur_item.2
          let idx_of := fun (g : String) => (new_order.enum.find? (fun p => p.2.1 = g))
          let doc2 : Doc :=
            { doc with objects := doc.objects.map (fun o =>
                if is_var o then
                  match idx_of (groupOf o) with
                  | some p => { o with groupSortKey := (p.1 : Int) }
                  | none => o
                else o) }
          let changes := doc.objects.any (fun o =>
            is_var o &&
              match idx_of (groupOf o) with
              | some p => o.groupSortKey != (p.1 : Int)
              | none => false)
          (doc2, changes)

/-! ### Observations used by the statements -/

/-- The multiset of `SortKey` values of the variables of group `g`. -/
def group_row_keys (d : Doc) (g : String) : Multiset Int :=
  ((d.objects.filter (fun o => is_var o && groupOf o = g)).map (fun o => o.sortKey) : Multiset Int)

/-- Number of variables in group `g`. -/
def group_size (d : Doc) (g : String) : Nat :=
  (d.objects.filter (fun o => is_var o && groupOf o = g)).length

/-- The dense key set `{0, …, n-1}` as a multiset of integers. -/
def dense_range (n : Nat) : Multiset Int :=
  Multiset.map (fun (k : Nat) => (k : Int)) (Multiset.range n)

/-- The key set `{0, …, n-2} ∪ {n}` that `Variable.reorder` produces when
the moved variable lands in the last slot. -/
def last_slot_keys (n : Nat) : Multiset Int :=
  dense_range (n - 1) + {(n : Int)}

/-- One `GroupSortKey` per distinct group (first encountered), as a
multiset. -/
def group_keys (d : Doc) : Multiset Int :=
  ((groupsData (d.objects.filter is_var)).map (fun p => p.2) : Multiset Int)

/-- All variables sharing a group string carry the same `GroupSortKey`. -/
def group_key_agreement (d : Doc) : Prop :=
  ∀ o ∈ d.objects.filter is_var, ∀ p ∈ d.objects.filter is_var,
    groupOf o = groupOf p → o.groupSortKey = p.groupSortKey

/-- The agreement invariant is decidable (it quantifies over the finite
object list). -/
instance group_key_agreement_decidable (d : Doc) : Decidable (group_key_agreement d) := by
  unfold group_key_agreement
  infer_instance

/-- Rank of group `g` in the `(key, name)`-sorted order of the groups. -/
def group_rank (d : Doc) (g : String) : Nat :=
  (stable_sort group_le (groupsData (d.objects.filter is_var))).findIdx (fun p => p.1 = g)

/-- Rank of the variable backed by `iname` in the `(key, name)`-sorted
order of group `g`. -/
def row_rank (d : Doc) (g : String) (iname : String) : Nat :=
  (sorted_group_vars d g).findIdx (fun o => o.internalName = iname)

/-! ### Concrete states used by closed statements -/

/-- Build a varset with the given identity, ordering keys and typed value
(the remaining properties at their creation defaults). -/
def mk_varset (iname label g : String) (sk gsk : Int) (t : String) (x : PyVal) : VarSet :=
  { internalName := iname, label := label, label2 := "", varType := t,
    value := x, enumOptions := [], docOfValue := "", descriptionProp := "",
    varGroup := g, sortKey := sk, groupSortKey := gsk, hidden := false,
    edMode := ⟨false, false⟩, expr := none }

/-- An integer variable record. -/
def mk_int_var (iname label g : String) (sk gsk : Int) : VarSet :=
  mk_varset iname label g sk gsk "App::PropertyInteger" (.scalar (.sInt 0))

/-- The empty document. -/
def emptyDoc : Doc := ⟨[], 0⟩

/-- One variable alone in its group. -/
def singletonDoc : Doc := ⟨[mk_int_var "XVar_0" "A" "Default" 0 0], 1⟩

/-- Three variables in one group, densely keyed. -/
def threeDoc : Doc :=
  ⟨[mk_int_var "XVar_0" "A" "Default" 0 0,
    mk_int_var "XVar_1" "B" "Default" 1 0,
    mk_int_var "XVar_2" "C" "Default" 2 0], 3⟩

/-- Two groups with sparse (legacy) group keys 0 and 5. -/
def sparseGroupsDoc : Doc :=
  ⟨[mk_int_var "XVar_0" "A" "Alpha" 0 0,
    mk_int_var "XVar_1" "B" "Beta" 0 5], 2⟩

/-- Two groups with dense group keys 0 and 1. -/
def twoGroupsDoc : Doc :=
  ⟨[mk_int_var "XVar_0" "X" "Alpha" 0 0,
    mk_int_var "XVar_1" "Y" "Beta" 0 1], 2⟩

/-- The property types the sample host supports. -/
def sampleSupported : List String :=
  ["App::PropertyInteger", "App::PropertyString", "App::PropertyFloat",
   "App::PropertyIntegerList", "App::PropertyStringList", "App::PropertyFloatList"]

/-- A variable of type `IntegerList` holding `[1, 2, 3]`. -/
def intListDoc : Doc :=
  ⟨[mk_varset "XVar_0" "L" "Default" 0 0 "App::PropertyIntegerList"
      (.vList [.sInt 1, .sInt 2, .sInt 3])], 1⟩

/-- A variable of type `IntegerList` holding the empty list. -/
def emptyListDoc : Doc :=
  ⟨[mk_varset "XVar_0" "L" "Default" 0 0 "App::PropertyIntegerList" (.vList [])], 1⟩

/-- A variable of type `StringList` holding `["1", "x"]`. -/
def strListDoc : Doc :=
  ⟨[mk_varset "XVar_0" "L" "Default" 0 0 "App::PropertyStringList"
      (.vList [.sStr "1", .sStr "x"])], 1⟩

/-- Creating `A` and then `B` in the default group of an empty document. -/
def createTwice : Except String (Doc × Bool) :=
  match create_var emptyDoc "A" "App::PropertyInteger" none none "" none "Default" with
  | .ok (d, _) => create_var d "B" "App::PropertyInteger" none none "" none "Default"
  | .error e => .error e

/-- An import record with a supported type but an invalid (non-identifier)
name. -/
def recBadName : VarInfoData :=
  ⟨"App::PropertyInteger", "1bad", some (.scalar (.sInt 5)), "", "", "Default",
   none, none, false, false, 0⟩

/-- A well-formed import record. -/
def recGood : VarInfoData :=
  ⟨"App::PropertyInteger", "Good", some (.scalar (.sInt 7)), "", "", "Default",
   none, none, false, false, 0⟩

/-- The state after moving `X` into `Beta` through the group setter. -/
def movedDoc : Doc := ((set_var_group twoGroupsDoc "X" "Beta").toOption).getD emptyDoc

/-! ### Closed forms used in proofs -/

/-- First loop position at or after `pos`, among the next `m` positions,
that triggers `pos >= seek`: the insertion point the reorder loop
discovers. -/
def firstTrigAbs (seek : ExtInt) : Nat → Nat → Option Nat
  | 0, _ => none
  | m + 1, pos =>
      if trig seek pos then some pos
      else firstTrigAbs seek m (pos + 1)

/-- `clamp(cur + delta, 0, m-1)` with the sentinels mapped to the ends: the
target position both reorder operations compute. -/
def clamped_target (cur : Nat) (m : Nat) : ExtInt → Nat
  | .negInf => 0
  | .posInf => m - 1
  | .fin d => (max 0 (min ((cur : Int) + d) ((m : Int) - 1))).toNat

/-- One `_set_sort_key` write from a batch, applied to one object (the
per-object step of `apply_row_keys`). -/
def row_upd (asg : List (String × Int)) (o : VarSet) : VarSet :=
  match asg.lookup o.internalName with
  | some k => { o with sortKey := k }
  | none => o

/-- The row key the reorder loop hands the remaining member at index `k`,
as a function of the discovered insertion point. -/
def reorder_shift (t : Option Nat) (k : Nat) : Int :=
  match t with
  | none => (k : Int)
  | some t => if t ≤ k then (k : Int) + 1 else (k : Int)

/-- The row key the moved variable itself receives: the insertion point
when the loop finds one, `len(group_vars)` otherwise. -/
def reorder_self_key (n : Nat) (t : Option Nat) : Int :=
  match t with
  | some t => (t : Int)
  | none => (n : Int)

/-- The insertion point `Variable.reorder doc iname delta` discovers while
walking the other members of the variable's group. -/
def reorder_trig_point (doc : Doc) (g iname : String) (delta : ExtInt) : Option Nat :=
  firstTrigAbs (seekOf ((row_rank doc g iname : Nat) : Int) delta)
    (group_size doc g - 1) 0

/-! ## Theorems -/

/-- A valid identifier is nonempty. -/
theorem isIdentifier_ne_empty (n : String) (h : isIdentifier n = true) : n ≠ "" := by
  intro he
  subst he
  simp [isIdentifier] at h

/-- `sanitize_var_name` accepts an already-stripped identifier verbatim. -/
theorem sanitize_fixed (n : String) (hid : isIdentifier n = true) (hstr : pyStrip n = n) :
    sanitize_var_name n = .ok n := by
  unfold sanitize_var_name
  rw [hstr]
  simp [hid, isIdentifier_ne_empty n hid]

/-- Lowercasing keeps a string nonempty. -/
theorem pyLower_ne_empty (s : String) (h : s ≠ "") : pyLower s ≠ "" := by
  intro he
  apply h
  unfold pyLower at he
  have hdata : (s.toList.map Char.toLower) = [] := congrArg String.data he
  cases s with
  | mk data =>
      cases data with
      | nil => rfl
      | cons c cs => simp at hdata

/-- A string starts with its own prefix. -/
theorem strStartsWith_append (s t : String) : strStartsWith (s ++ t) s = true := by
  unfold strStartsWith
  exact (List.isPrefixOf_iff_prefix).2 (by rw [show (s ++ t).toList = s.toList ++ t.toList from String.data_append s t]; exact List.prefix_append _ _)

/-- `List.lookup` distributes over append. -/
theorem lookup_append (l1 l2 : List (String × Int)) (g : String) :
    (l1 ++ l2).lookup g =
      match l1.lookup g with
      | some k => some k
      | none => l2.lookup g := by
  induction l1 with
  | nil => rfl
  | cons p l ih =>
      by_cases hg : g == p.1
      · simp [List.lookup, hg]
      · simp only [List.cons_append, List.lookup, hg]
        exact ih

/-- Looking up in the `groupsData` fold: entries of the accumulator win,
the scanned objects fill in the rest. -/
theorem groupsDataFrom_lookup (l : List VarSet) (g : String) : ∀ acc,
    (groupsDataFrom acc l).lookup g =
      match acc.lookup g with
      | some k => some k
      | none => (groupsData l).lookup g := by
  induction l with
  | nil =>
      intro acc
      cases hacc : acc.lookup g <;> simp [groupsDataFrom, groupsData, hacc]
  | cons o l ih =>
      intro acc
      have hstep : groupsDataFrom acc (o :: l) =
          groupsDataFrom
            (if (acc.lookup (groupOf o)).isSome then acc
             else acc ++ [(groupOf o, o.groupSortKey)]) l := rfl
      have hstep0 : groupsData (o :: l) =
          groupsDataFrom [(groupOf o, o.groupSortKey)] l := rfl
      rw [hstep, ih, hstep0, ih]
      by_cases hin : (acc.lookup (groupOf o)).isSome
      · rw [if_pos hin]
        cases hacc : acc.lookup g with
        | some k => simp
        | none =>
            have hne : ¬ g == groupOf o := by
              intro hgo
              rw [eq_of_beq hgo] at hacc
              rw [hacc] at hin
              simp at hin
            simp [List.lookup, hne]
      · rw [if_neg hin, lookup_append]
        cases hacc : acc.lookup g with
        | some k => simp
        | none => simp

/-- A key found by the `groupsData` scan comes from some variable of that
group. -/
theorem groupsData_lookup_sound (l : List VarSet) (g : String) (k : Int)
    (h : (groupsData l).lookup g = some k) :
    ∃ o ∈ l, groupOf o = g ∧ o.groupSortKey = k := by
  induction l with
  | nil => simp [groupsData, groupsDataFrom] at h
  | cons o l ih =>
      have hstep0 : groupsData (o :: l) =
          groupsDataFrom [(groupOf o, o.groupSortKey)] l := rfl
      rw [hstep0, groupsDataFrom_lookup] at h
      by_cases hg : g == groupOf o
      · refine ⟨o, List.mem_cons_self _ _, (eq_of_beq hg).symm, ?_⟩
        simp [List.lookup, hg] at h
        exact h
      · simp [List.lookup, hg] at h
        obtain ⟨o2, ho2, hgo2, hk⟩ := ih h
        exact ⟨o2, List.mem_cons_of_mem _ ho2, hgo2, hk⟩

/-- Every group present among the scanned variables is found by the
`groupsData` scan. -/
theorem groupsData_lookup_complete (l : List VarSet) (g : String) (o : VarSet)
    (ho : o ∈ l) (hg : groupOf o = g) :
    ((groupsData l).lookup g).isSome := by
  induction l with
  | nil => cases ho
  | cons o1 l ih =>
      have hstep0 : groupsData (o1 :: l) =
          groupsDataFrom [(groupOf o1, o1.groupSortKey)] l := rfl
      rw [hstep0, groupsDataFrom_lookup]
      by_cases hgo : g == groupOf o1
      · simp [List.lookup, hgo]
      · simp only [List.lookup, hgo, Bool.false_eq_true, if_false]
        rcases List.mem_cons.mp ho with rfl | hmem
        · exact absurd (by simp [hg]) hgo
        · exact ih hmem

/-- Inversion of a successful typed assignment. -/
theorem assign_value_ok (v : VarSet) (x : PyVal) (w : VarSet)
    (h : assign_value v x = .ok w) : w = { v with value := x } := by
  unfold assign_value at h
  split at h
  · cases h; rfl
  · cases h

/-- Inversion of a successful `create_var`: the document gains exactly one
varset, appended at the end, with row key 0, the sanitized name as label, a
fresh `XVar_` name, and the bumped counter. -/
theorem create_var_ok_shape (doc : Doc) (name var_type : String)
    (value : Option PyVal) (options : Option (List String)) (description : String)
    (expression : Option String) (group : String) (d2 : Doc)
    (h : create_var doc name var_type value options description expression group =
      .ok (d2, true)) :
    ∃ v : VarSet, d2.objects = doc.objects ++ [v] ∧ v.sortKey = 0 ∧
      sanitize_var_name name = .ok v.label ∧
      v.internalName = "XVar_" ++ toString doc.counter ∧
      d2.counter = doc.counter + 1 := by
  unfold create_var at h
  split at h
  · exact absurd h (by simp)
  rename_i nm hsan
  repeat' split at h
  all_goals
    simp only [Except.ok.injEq, Prod.mk.injEq, reduceCtorEq, Bool.true_eq_false,
      Bool.false_eq_true, eq_self_iff_true, and_true, true_and, and_false, false_and] at h
  all_goals try (subst h; exact ⟨_, rfl, rfl, hsan, rfl, rfl⟩)
  all_goals
    rename_i x
    split at h
    · simp only [reduceCtorEq] at h
    · rename_i w hw
      simp only [Except.ok.injEq, Prod.mk.injEq, and_true] at h
      rw [assign_value_ok _ _ _ hw] at h
      subst h
      exact ⟨_, rfl, rfl, hsan, rfl, rfl⟩

/-- C7: converting an `IntegerList` variable holding `[1, 2, 3]` to
`StringList` yields `["1", "2", "3"]`, and converting an `IntegerList`
holding `[]` to the scalar `Integer` type leaves the value at the target
type's default without raising. -/
theorem C7_list_conversions :
    ((set_var_type sampleSupported intListDoc "L" "App::PropertyStringList" none).1.objects.map
        (fun o => (o.varType, o.value)) =
      [("App::PropertyStringList", .vList [.sStr "1", .sStr "2", .sStr "3"])]) ∧
    (set_var_type sampleSupported intListDoc "L" "App::PropertyStringList" none).2.toOption = some true ∧
    ((set_var_type sampleSupported emptyListDoc "L" "App::PropertyInteger" none).1.objects.map
        (fun o => (o.varType, o.value)) =
      [("App::PropertyInteger", default_value "App::PropertyInteger" [])]) ∧
    (set_var_type sampleSupported emptyListDoc "L" "App::PropertyInteger" none).2.toOption = some true := by
  decide

/-- C1 counterexample: reordering the only variable of a group by `delta =
0` leaves its row key at `1`, so the group's keys are `{1}`, not the dense
set `{0}` the claim requires. -/
theorem C1_cex_singleton_reorder_not_dense :
    group_row_keys (Variable.reorder singletonDoc "XVar_0" (.fin 0)) "Default" = {(1 : Int)} ∧
    group_row_keys (Variable.reorder singletonDoc "XVar_0" (.fin 0)) "Default" ≠ dense_range 1 := by
  decide

/-- C2 counterexample: after creating `A` and then `B` in the same group,
`B`'s row key is `0` although one variable pre-existed in the group, so the
new variable is not appended at row key `1`. -/
theorem C2_cex_create_var_rowkey_zero :
    createTwice.toOption.map
        (fun r => (r.2, r.1.objects.map (fun o => (o.label, o.sortKey)))) =
      some (true, [("A", 0), ("B", 0)]) ∧ (0 : Int) ≠ 1 := by
  decide

/-- C3 counterexample: with legacy sparse group keys `{0, 5}`, a
`reorder_group` call whose clamped target equals the current position
returns early and leaves the keys `{0, 5}`, which is not the dense set
`{0, 1}`. -/
theorem C3_cex_noop_reorder_group_not_dense :
    reorder_group sparseGroupsDoc "Alpha" (.fin 0) = (sparseGroupsDoc, false) ∧
    group_keys sparseGroupsDoc ≠ dense_range 2 := by
  decide

/-- C4 counterexample: moving `X` from group `Alpha` (key 0) into group
`Beta` (key 1) through the group setter rewrites only the group string, so
`Beta` now holds variables with keys 0 and 1: the agreement invariant is
broken. -/
theorem C4_cex_group_setter_breaks_agreement :
    (set_var_group twoGroupsDoc "X" "Beta").toOption = some movedDoc ∧
    ¬ group_key_agreement movedDoc := by
  decide

/-- C6 counterexample: converting a `StringList` variable holding
`["1", "x"]` to `IntegerList` does not drop the non-numeric element and
keep `[1]`; the whole conversion fails and the value is left at the empty
default. -/
theorem C6_cex_non_numeric_not_dropped :
    (set_var_type sampleSupported strListDoc "L" "App::PropertyIntegerList" none).2.toOption = some true ∧
    ((set_var_type sampleSupported strListDoc "L" "App::PropertyIntegerList" none).1.objects.map
        (fun o => o.value) = [.vList []]) ∧
    PyVal.vList [] ≠ PyVal.vList [.sInt 1] := by
  decide

/-- C8 counterexample: a record with a supported type but an invalid name
raises from `Variable.__init__` and aborts the import, so the following
well-formed record is not processed — importing it alone would have
created the variable. -/
theorem C8_cex_bad_name_aborts_import :
    import_variables sampleSupported [recBadName, recGood] emptyDoc = (emptyDoc, false) ∧
    get_varset (import_variables sampleSupported [recBadName, recGood] emptyDoc).1 "Good" = none ∧
    ((get_varset (import_variables sampleSupported [recGood] emptyDoc).1 "Good").map
      (fun o => o.label) = some "Good") := by
  decide

/-- Inversion of a `create_var` call that returns `False`: the document is
untouched. -/
theorem create_var_false_shape (doc : Doc) (name var_type : String)
    (value : Option PyVal) (options : Option (List String)) (description : String)
    (expression : Option String) (group : String) (d2 : Doc)
    (h : create_var doc name var_type value options description expression group =
      .ok (d2, false)) : d2 = doc := by
  unfold create_var at h
  split at h
  · exact absurd h (by simp)
  rename_i nm hsan
  repeat' split at h
  all_goals
    simp only [Except.ok.injEq, Prod.mk.injEq, reduceCtorEq, Bool.true_eq_false,
      Bool.false_eq_true, eq_self_iff_true, and_true, true_and, and_false, false_and] at h
  · exact h.symm
  all_goals
    rename_i x
    split at h
    · simp only [reduceCtorEq] at h
    · simp only [Except.ok.injEq, Prod.mk.injEq, Bool.true_eq_false, and_false] at h

/-- Inversion of an actually-creating `create_var`: the appended varset's
group string, fresh name, and two-phase group-key assignment (the bootstrap
scan sees the new varset with the FreeCAD integer default 0). -/
theorem create_var_created_shape (doc : Doc) (name var_type : String)
    (value : Option PyVal) (options : Option (List String)) (description : String)
    (expression : Option String) (group : String) (d2 : Doc)
    (h : create_var doc name var_type value options description expression group =
      .ok (d2, true)) :
    ∃ v : VarSet,
      d2.objects = doc.objects ++ [v] ∧
      v.varGroup = normalized_group group ∧
      v.internalName = "XVar_" ++ toString doc.counter ∧
      v.groupSortKey = get_or_assign_initial_group_sort_key group (Doc.mk (doc.objects ++ [{ v with groupSortKey := 0 }]) (doc.counter + 1)) := by
  unfold create_var at h
  split at h
  · exact absurd h (by simp)
  rename_i nm hsan
  repeat' split at h
  all_goals
    simp only [Except.ok.injEq, Prod.mk.injEq, reduceCtorEq, Bool.true_eq_false,
      Bool.false_eq_true, eq_self_iff_true, and_true, true_and, and_false, false_and] at h
  all_goals try (subst h; exact ⟨_, rfl, rfl, rfl, rfl⟩)
  all_goals
    rename_i x
    split at h
    · simp only [reduceCtorEq] at h
    · rename_i w hw
      simp only [Except.ok.injEq, Prod.mk.injEq, and_true] at h
      rw [assign_value_ok _ _ _ hw] at h
      subst h
      exact ⟨_, rfl, rfl, rfl, rfl⟩

/-- C4 (amended): `create_var` preserves the same-group/same-key agreement
invariant when its `group` argument is nonempty and already in the stored
title-cased form (as produced by the registry itself); the `Variable.group`
setter, by contrast, rewrites only the group string and can break the
invariant (see the counterexample). -/
theorem C4_create_var_preserves_agreement (doc : Doc) (name var_type : String)
    (value : Option PyVal) (options : Option (List String)) (description : String)
    (expression : Option String) (group : String) (d2 : Doc) (b : Bool)
    (hagree : group_key_agreement doc)
    (hg1 : group ≠ "") (hg2 : pyTitle group = group)
    (h : create_var doc name var_type value options description expression group =
      .ok (d2, b)) :
    group_key_agreement d2 := by
  cases b with
  | false =>
      rw [create_var_false_shape _ _ _ _ _ _ _ _ _ h]
      exact hagree
  | true =>
      obtain ⟨v, hobj, hvg, hvi, hvk⟩ := create_var_created_shape _ _ _ _ _ _ _ _ _ h
      have hng : normalized_group group = group := by
        unfold normalized_group
        rw [if_neg hg1, hg2]
      have hgv : groupOf v = group := by
        unfold groupOf
        rw [hvg, hng, if_neg hg1]
      have hvarv : is_var v = true := by
        unfold is_var
        rw [hvi]
        exact strStartsWith_append _ _
      set w : VarSet := { v with groupSortKey := 0 } with hwdef
      have hgw : groupOf w = group := hgv
      have hvarw : is_var w = true := hvarv
      have hfl : (doc.objects ++ [w]).filter is_var =
          doc.objects.filter is_var ++ [w] := by
        rw [List.filter_append]
        simp [hvarw]
      have hlk2 : (groupsData ((doc.objects ++ [w]).filter is_var)).lookup group =
          match (groupsData (doc.objects.filter is_var)).lookup group with
          | some k0 => some k0
          | none => some w.groupSortKey := by
        rw [hfl]
        have hsplit : groupsData (doc.objects.filter is_var ++ [w]) =
            groupsDataFrom (groupsData (doc.objects.filter is_var)) [w] := by
          unfold groupsData groupsDataFrom
          exact List.foldl_append _ _ _ _
        rw [hsplit, groupsDataFrom_lookup]
        cases (groupsData (doc.objects.filter is_var)).lookup group with
        | some k0 => rfl
        | none =>
            have hgd : groupsData [w] = [(groupOf w, w.groupSortKey)] := rfl
            simp [hgd, List.lookup, hgw]
      -- the key assigned to the new variable agrees with every group member
      have hkey : ∀ o ∈ doc.objects.filter is_var, groupOf o = group →
          o.groupSortKey = v.groupSortKey := by
        intro o ho hgo
        cases hlk : (groupsData (doc.objects.filter is_var)).lookup group with
        | some k0 =>
            obtain ⟨o2, ho2, hgo2, hko2⟩ := groupsData_lookup_sound _ _ _ hlk
            have h12 : o.groupSortKey = o2.groupSortKey :=
              hagree o ho o2 ho2 (by rw [hgo, hgo2])
            have hkk : v.groupSortKey = k0 := by
              rw [hvk]
              unfold get_or_assign_initial_group_sort_key
              dsimp only
              rw [hlk2, hlk]
            rw [h12, hko2, hkk]
        | none =>
            have hc := groupsData_lookup_complete (doc.objects.filter is_var) group o ho hgo
            rw [hlk] at hc
            simp at hc
      -- final agreement over the extended object list
      intro o1 h1 o2 h2 hgg
      rw [hobj, List.filter_append] at h1 h2
      have hfv : [v].filter is_var = [v] := by simp [hvarv]
      rw [hfv] at h1 h2
      rcases List.mem_append.mp h1 with hm1 | hm1 <;>
        rcases List.mem_append.mp h2 with hm2 | hm2
      · exact hagree o1 hm1 o2 hm2 hgg
      · have ho2v : o2 = v := List.mem_singleton.mp hm2
        subst ho2v
        exact hkey o1 hm1 (by rw [hgg, hgv])
      · have ho1v : o1 = v := List.mem_singleton.mp hm1
        subst ho1v
        exact (hkey o2 hm2 (by rw [← hgg, hgv])).symm
      · have ho1v : o1 = v := List.mem_singleton.mp hm1
        have ho2v : o2 = v := List.mem_singleton.mp hm2
        rw [ho1v, ho2v]

/-- Witness for C4: creating `Z` in the existing group `Beta` of a
document that satisfies the invariant keeps the invariant. -/
theorem C4_create_var_preserves_agreement_witness :
    group_key_agreement
      ((create_var twoGroupsDoc "Z" "App::PropertyInteger" none none "" none
        "Beta").toOption.getD (emptyDoc, false)).1 :=
  C4_create_var_preserves_agreement twoGroupsDoc "Z" "App::PropertyInteger" none none ""
    none "Beta" _ true (by decide) (by decide) (by decide) (by decide)

/-- Characters with equal code points are equal. -/
theorem char_toNat_inj {a b : Char} (h : a.toNat = b.toNat) : a = b := by
  cases a with
  | mk va pa =>
      cases b with
      | mk vb pb =>
          have : va = vb := UInt32.ext h
          subst this
          rfl

/-- `charsLe` is total. -/
theorem charsLe_total (a : List Char) : ∀ b, (charsLe a b || charsLe b a) = true := by
  induction a with
  | nil => intro b; cases b <;> simp [charsLe]
  | cons x as ih =>
      intro b
      cases b with
      | nil => simp [charsLe]
      | cons y bs =>
          simp only [charsLe, Bool.or_eq_true, Bool.and_eq_true, decide_eq_true_eq]
          rcases Nat.lt_trichotomy x.toNat y.toNat with h | h | h
          · exact Or.inl (Or.inl h)
          · rcases Bool.or_eq_true _ _ |>.mp (ih bs) with h2 | h2
            · exact Or.inl (Or.inr ⟨h, h2⟩)
            · exact Or.inr (Or.inr ⟨h.symm, h2⟩)
          · exact Or.inr (Or.inl h)

/-- `charsLe` is transitive. -/
theorem charsLe_trans : ∀ a b c : List Char,
    charsLe a b = true → charsLe b c = true → charsLe a c = true := by
  intro a
  induction a with
  | nil => intro b c _ _; cases c <;> simp [charsLe]
  | cons x as ih =>
      intro b c hab hbc
      cases b with
      | nil => simp [charsLe] at hab
      | cons y bs =>
          cases c with
          | nil => simp [charsLe] at hbc
          | cons z cs =>
              simp only [charsLe, Bool.or_eq_true, Bool.and_eq_true,
                decide_eq_true_eq] at hab hbc ⊢
              rcases hab with h1 | ⟨h1, h1r⟩ <;> rcases hbc with h2 | ⟨h2, h2r⟩
              · exact Or.inl (Nat.lt_trans h1 h2)
              · exact Or.inl (h2 ▸ h1)
              · exact Or.inl (h1 ▸ h2)
              · exact Or.inr ⟨h1.trans h2, ih bs cs h1r h2r⟩

/-- `charsLt` is transitive. -/
theorem charsLt_trans : ∀ a b c : List Char,
    charsLt a b = true → charsLt b c = true → charsLt a c = true := by
  intro a
  induction a with
  | nil =>
      intro b c hab hbc
      cases b with
      | nil => simp [charsLt] at hab
      | cons y bs => cases c with
        | nil => simp [charsLt] at hbc
        | cons z cs => simp [charsLt]
  | cons x as ih =>
      intro b c hab hbc
      cases b with
      | nil => simp [charsLt] at hab
      | cons y bs =>
          cases c with
          | nil => simp [charsLt] at hbc
          | cons z cs =>
              simp only [charsLt, Bool.or_eq_true, Bool.and_eq_true,
                decide_eq_true_eq] at hab hbc ⊢
              rcases hab with h1 | ⟨h1, h1r⟩ <;> rcases hbc with h2 | ⟨h2, h2r⟩
              · exact Or.inl (Nat.lt_trans h1 h2)
              · exact Or.inl (h2 ▸ h1)
              · exact Or.inl (h1 ▸ h2)
              · exact Or.inr ⟨h1.trans h2, ih bs cs h1r h2r⟩

/-- `charsLt` is irreflexive. -/
theorem charsLt_irrefl : ∀ a : List Char, charsLt a a = false := by
  intro a
  induction a with
  | nil => rfl
  | cons x as ih => simp [charsLt, ih]

/-- Distinct code-point sequences are strictly ordered one way or the
other. -/
theorem charsLt_connected : ∀ a b : List Char, a ≠ b →
    (charsLt a b || charsLt b a) = true := by
  intro a
  induction a with
  | nil =>
      intro b hne
      cases b with
      | nil => exact absurd rfl hne
      | cons y bs => simp [charsLt]
  | cons x as ih =>
      intro b hne
      cases b with
      | nil => simp [charsLt]
      | cons y bs =>
          simp only [charsLt, Bool.or_eq_true, Bool.and_eq_true, decide_eq_true_eq]
          rcases Nat.lt_trichotomy x.toNat y.toNat with h | h | h
          · exact Or.inl (Or.inl h)
          · have hxy : x = y := char_toNat_inj h
            subst hxy
            have htl : as ≠ bs := fun he => hne (by rw [he])
            rcases Bool.or_eq_true _ _ |>.mp (ih bs htl) with h2 | h2
            · exact Or.inl (Or.inr ⟨rfl, h2⟩)
            · exact Or.inr (Or.inr ⟨rfl, h2⟩)
          · exact Or.inr (Or.inl h)

/-- Distinct strings are strictly ordered one way or the other. -/
theorem strLt_connected (a b : String) (hne : a ≠ b) :
    (strLt a b || strLt b a) = true := by
  unfold strLt
  refine charsLt_connected _ _ (fun h => hne ?_)
  cases a with
  | mk da =>
      cases b with
      | mk db =>
          have : da = db := h
          rw [this]

/-- `row_le` is total. -/
theorem row_le_total (a b : VarSet) : (row_le a b || row_le b a) = true := by
  unfold row_le
  by_cases hg : groupOf a = groupOf b
  · rw [if_pos hg, if_pos hg.symm]
    by_cases hk : a.sortKey = b.sortKey
    · rw [if_pos hk, if_pos hk.symm]
      exact charsLe_total _ _
    · rw [if_neg hk, if_neg (fun h => hk h.symm)]
      rcases Int.lt_or_lt_of_ne hk with h | h
      · simp [h]
      · simp [h]
  · rw [if_neg hg, if_neg (fun h => hg h.symm)]
    exact strLt_connected _ _ hg
/-- `row_le` is transitive. -/
theorem row_le_trans (a b c : VarSet) (hab : row_le a b = true)
    (hbc : row_le b c = true) : row_le a c = true := by
  unfold row_le at hab hbc ⊢
  by_cases hg1 : groupOf a = groupOf b <;> by_cases hg2 : groupOf b = groupOf c
  · rw [if_pos hg1] at hab
    rw [if_pos hg2] at hbc
    rw [if_pos (hg1.trans hg2)]
    by_cases hk1 : a.sortKey = b.sortKey <;> by_cases hk2 : b.sortKey = c.sortKey
    · rw [if_pos hk1] at hab
      rw [if_pos hk2] at hbc
      rw [if_pos (hk1.trans hk2)]
      exact charsLe_trans _ _ _ hab hbc
    · rw [if_pos hk1] at hab
      rw [if_neg hk2] at hbc
      rw [if_neg (fun h => hk2 (hk1 ▸ h)), hk1]
      exact hbc
    · rw [if_neg hk1] at hab
      rw [if_pos hk2] at hbc
      rw [if_neg (fun h => hk1 (h.trans hk2.symm)), ← hk2]
      exact hab
    · rw [if_neg hk1] at hab
      rw [if_neg hk2] at hbc
      simp only [decide_eq_true_eq] at hab hbc
      have hlt : a.sortKey < c.sortKey := hab.trans hbc
      rw [if_neg (fun h => absurd (h ▸ hlt) (lt_irrefl _))]
      simpa using hlt
  · rw [if_pos hg1] at hab
    rw [if_neg hg2] at hbc
    rw [if_neg (fun h => hg2 (hg1 ▸ h)), hg1]
    exact hbc
  · rw [if_neg hg1] at hab
    rw [if_pos hg2] at hbc
    rw [if_neg (fun h => hg1 (h.trans hg2.symm)), ← hg2]
    exact hab
  · rw [if_neg hg1] at hab
    rw [if_neg hg2] at hbc
    have hlt : charsLt (groupOf a).toList (groupOf c).toList = true :=
      charsLt_trans _ _ _ hab hbc
    have hgac : groupOf a ≠ groupOf c := by
      intro h
      rw [h] at hlt
      rw [charsLt_irrefl] at hlt
      cases hlt
    rw [if_neg hgac]
    exact hlt

/-- Inserting permutes to consing. -/
theorem ordered_insert_perm {α : Type} (le : α → α → Bool) (a : α) :
    ∀ l : List α, (ordered_insert le a l).Perm (a :: l) := by
  intro l
  induction l with
  | nil => exact List.Perm.refl _
  | cons b l ih =>
      unfold ordered_insert
      by_cases h : le a b
      · rw [if_pos h]
      · rw [if_neg h]
        exact (List.Perm.cons b ih).trans (List.Perm.swap a b l)

/-- The stable sort permutes its input. -/
theorem stable_sort_perm {α : Type} (le : α → α → Bool) :
    ∀ l : List α, (stable_sort le l).Perm l := by
  intro l
  induction l with
  | nil => exact List.Perm.refl _
  | cons a l ih =>
      exact (ordered_insert_perm le a (stable_sort le l)).trans (List.Perm.cons a ih)

/-- Inserting into a sorted list keeps it sorted (for a total transitive
comparison). -/
theorem sorted_ordered_insert {α : Type} (le : α → α → Bool)
    (htot : ∀ x y, (le x y || le y x) = true)
    (htrans : ∀ x y z, le x y = true → le y z = true → le x z = true)
    (a : α) : ∀ l : List α, l.Pairwise (fun x y => le x y = true) →
    (ordered_insert le a l).Pairwise (fun x y => le x y = true) := by
  intro l
  induction l with
  | nil => intro _; exact List.pairwise_singleton _ _
  | cons b l ih =>
      intro hs
      obtain ⟨hb, hl⟩ := List.pairwise_cons.mp hs
      unfold ordered_insert
      by_cases h : le a b
      · rw [if_pos h]
        refine List.pairwise_cons.mpr ⟨?_, hs⟩
        intro y hy
        rcases List.mem_cons.mp hy with rfl | hy2
        · exact h
        · exact htrans a b y h (hb y hy2)
      · rw [if_neg h]
        refine List.pairwise_cons.mpr ⟨?_, ih hl⟩
        intro y hy
        have hy3 := (ordered_insert_perm le a l).mem_iff.mp hy
        rcases List.mem_cons.mp hy3 with rfl | hy2
        · rcases Bool.or_eq_true _ _ |>.mp (htot y b) with h2 | h2
          · exact absurd h2 h
          · exact h2
        · exact hb y hy2

/-- The stable sort sorts (for a total transitive comparison). -/
theorem sorted_stable_sort {α : Type} (le : α → α → Bool)
    (htot : ∀ x y, (le x y || le y x) = true)
    (htrans : ∀ x y z, le x y = true → le y z = true → le x z = true) :
    ∀ l : List α, (stable_sort le l).Pairwise (fun x y => le x y = true) := by
  intro l
  induction l with
  | nil => exact List.Pairwise.nil
  | cons a l ih => exact sorted_ordered_insert le htot htrans a _ ih

/-- In a sorted list, the index of the unique element satisfying `q` is
the number of elements strictly below it. -/
theorem sorted_findIdx_eq_countP {α : Type} (le : α → α → Bool) (q : α → Bool)
    (x : α) : ∀ l : List α, l.Pairwise (fun a b => le a b = true) →
    x ∈ l → (∀ y ∈ l, q y = true ↔ y = x) →
    (∀ y ∈ l, le y x = true → le x y = true → y = x) →
    l.findIdx q = l.countP (fun y => le y x && !(le x y)) := by
  intro l
  induction l with
  | nil => intro _ hx; cases hx
  | cons a l ih =>
      intro hs hx hq hanti
      obtain ⟨ha, hl⟩ := List.pairwise_cons.mp hs
      rw [List.findIdx_cons, List.countP_cons]
      by_cases hqa : q a
      · have hax : a = x := (hq a (List.mem_cons_self _ _)).mp hqa
        subst hax
        rw [hqa]
        have hpa : (le a a && !(le a a)) = false := by
          cases le a a <;> rfl
        rw [hpa]
        have hcount : l.countP (fun y => le y a && !(le a y)) = 0 := by
          rw [List.countP_eq_zero]
          intro y hy
          have hay : le a y = true := ha y hy
          cases hya : le y a
          · simp
          · have hya2 : y = a := hanti y (List.mem_cons_of_mem _ hy) hya hay
            subst hya2
            simp [hay]
        rw [hcount]
        rfl
      · have hax : a ≠ x := fun h => hqa ((hq a (List.mem_cons_self _ _)).mpr h)
        have hx2 : x ∈ l := by
          rcases List.mem_cons.mp hx with rfl | h2
          · exact absurd rfl hax
          · exact h2
        have h1 : le a x = true := ha x hx2
        have h2 : le x a = false := by
          cases h2 : le x a
          · rfl
          · exact absurd (hanti a (List.mem_cons_self _ _) h1 h2) hax
        have hpa : (le a x && !(le x a)) = true := by rw [h1, h2]; rfl
        have hqa2 : q a = false := Bool.not_eq_true _ |>.mp hqa
        rw [hqa2, hpa]
        simp only [cond_false, if_true]
        rw [ih hl hx2
          (fun y hy => hq y (List.mem_cons_of_mem _ hy))
          (fun y hy => hanti y (List.mem_cons_of_mem _ hy))]

/-- The assignment batch targets exactly the renumbered members. -/
theorem keyedFrom_fst (f : Nat → Int) : ∀ (xs : List VarSet) (i : Nat),
    (keyedFrom f xs i).map Prod.fst = xs.map VarSet.internalName := by
  intro xs
  induction xs with
  | nil => intro i; rfl
  | cons v rest ih =>
      intro i
      simp only [keyedFrom, List.map_cons, ih]

/-- Renumbering batches agree when the key functions agree from the start
index on. -/
theorem keyedFrom_congr (f g : Nat → Int) : ∀ (xs : List VarSet) (i : Nat),
    (∀ j, i ≤ j → f j = g j) → keyedFrom f xs i = keyedFrom g xs i := by
  intro xs
  induction xs with
  | nil => intro i _; rfl
  | cons v rest ih =>
      intro i hfg
      simp only [keyedFrom]
      rw [hfg i (Nat.le_refl i), ih (i + 1) (fun j hj => hfg j (Nat.le_of_succ_le hj))]

/-- A name outside the batch is not assigned. -/
theorem lookup_keyedFrom_notmem (f : Nat → Int) (nm : String) :
    ∀ (xs : List VarSet) (i : Nat), nm ∉ xs.map VarSet.internalName →
    (keyedFrom f xs i).lookup nm = none := by
  intro xs
  induction xs with
  | nil => intro i _; rfl
  | cons v rest ih =>
      intro i hnm
      simp only [List.map_cons, List.mem_cons] at hnm
      push_neg at hnm
      simp only [keyedFrom, List.lookup]
      have hne : (nm == v.internalName) = false := by simpa using hnm.1
      rw [hne]
      exact ih (i + 1) hnm.2

/-- A member's assigned key is its key function applied at its index. -/
theorem lookup_keyedFrom_mem (f : Nat → Int) (nm : String) :
    ∀ (xs : List VarSet) (i : Nat), nm ∈ xs.map VarSet.internalName →
    (keyedFrom f xs i).lookup nm =
      some (f (i + xs.findIdx (fun o => o.internalName = nm))) := by
  intro xs
  induction xs with
  | nil => intro i h; cases h
  | cons v rest ih =>
      intro i hnm
      simp only [keyedFrom, List.lookup, List.findIdx_cons]
      by_cases hv : v.internalName = nm
      · have he : (nm == v.internalName) = true := by simpa using hv.symm
        rw [he]
        have hd : (decide (v.internalName = nm)) = true := by simpa using hv
        rw [hd]
        simp
      · have he : (nm == v.internalName) = false := by
          simpa using (fun h => hv h.symm)
        rw [he]
        have hd : (decide (v.internalName = nm)) = false := by simpa using hv
        rw [hd]
        have hmem : nm ∈ rest.map VarSet.internalName := by
          simp only [List.map_cons, List.mem_cons] at hnm
          rcases hnm with h | h
          · exact absurd h.symm hv
          · exact h
        rw [ih (i + 1) hmem]
        simp only [cond_false]
        have harith : i + 1 + List.findIdx (fun o => decide (o.internalName = nm)) rest =
            i + (List.findIdx (fun o => decide (o.internalName = nm)) rest + 1) := by omega
        rw [harith]

/-- Closed form of the reorder loop once the insertion point has been
passed (`offset = 1`). -/
theorem reorder_loop_triggered (seek : ExtInt) :
    ∀ (xs : List VarSet) (pos : Nat) (ins : Int),
    reorder_loop seek xs pos 1 ins =
      (keyedFrom (fun i => (i : Int) + 1) xs pos, ins) := by
  intro xs
  induction xs with
  | nil => intro pos ins; rfl
  | cons v rest ih =>
      intro pos ins
      simp only [reorder_loop, keyedFrom]
      rw [if_neg (by simp)]
      rw [ih (pos + 1) ins]
      simp

/-- A discovered insertion point lies within the scanned window. -/
theorem firstTrigAbs_bounds (seek : ExtInt) :
    ∀ (m pos t : Nat), firstTrigAbs seek m pos = some t → pos ≤ t ∧ t < pos + m := by
  intro m
  induction m with
  | zero => intro pos t h; cases h
  | succ m ih =>
      intro pos t h
      unfold firstTrigAbs at h
      split at h
      · cases h
        omega
      · have := ih (pos + 1) t h
        omega

/-- Closed form of the reorder loop from its initial state: the discovered
insertion point shifts the keys of the members at or after it by one. -/
theorem reorder_loop_untriggered (seek : ExtInt) :
    ∀ (xs : List VarSet) (pos : Nat),
    reorder_loop seek xs pos 0 (-1) =
      match firstTrigAbs seek xs.length pos with
      | none => (keyedFrom (fun i => (i : Int)) xs pos, -1)
      | some t =>
          (keyedFrom (fun i => if t ≤ i then (i : Int) + 1 else (i : Int)) xs pos,
           (t : Int)) := by
  intro xs
  induction xs with
  | nil => intro pos; rfl
  | cons v rest ih =>
      intro pos
      simp only [reorder_loop, List.length_cons]
      by_cases htr : trig seek pos
      · rw [if_pos (by simp [htr])]
        have hft : firstTrigAbs seek (rest.length + 1) pos = some pos := by
          unfold firstTrigAbs
          rw [if_pos htr]
        rw [hft, reorder_loop_triggered]
        simp only [keyedFrom]
        rw [if_pos (Nat.le_refl pos)]
        rw [keyedFrom_congr (fun i => (i : Int) + 1)
          (fun i => if pos ≤ i then (i : Int) + 1 else (i : Int)) rest (pos + 1)
          (fun j hj => by
            show ((j : Int) + 1) = (if pos ≤ j then (j : Int) + 1 else (j : Int))
            rw [if_pos (by omega)])]
        simp
      · rw [if_neg (by simp [htr])]
        have hft : firstTrigAbs seek (rest.length + 1) pos =
            firstTrigAbs seek rest.length (pos + 1) := by
          show (if trig seek pos = true then some pos
              else firstTrigAbs seek rest.length (pos + 1)) =
            firstTrigAbs seek rest.length (pos + 1)
          rw [if_neg htr]
        rw [hft, ih (pos + 1)]
        cases hrec : firstTrigAbs seek rest.length (pos + 1) with
        | none =>
            simp only [keyedFrom]
            simp
        | some t =>
            have hb := firstTrigAbs_bounds seek rest.length (pos + 1) t hrec
            simp only [keyedFrom]
            rw [if_neg (by omega)]
            simp

/-- Mapping each member to its assigned key yields the key function over
the index range. -/
theorem map_match_keyedFrom (f : Nat → Int) (tail : List (String × Int))
    (dflt : VarSet → Int) : ∀ (xs : List VarSet) (i : Nat),
    (xs.map VarSet.internalName).Nodup →
    (xs.map (fun o =>
      match (keyedFrom f xs i ++ tail).lookup o.internalName with
      | some k => k
      | none => dflt o)) =
      (List.range xs.length).map (fun k => f (i + k)) := by
  intro xs
  induction xs with
  | nil => intro i _; rfl
  | cons v rest ih =>
      intro i hnd
      simp only [List.map_cons, List.nodup_cons] at hnd
      obtain ⟨hv, hrest⟩ := hnd
      simp only [keyedFrom, List.cons_append, List.map_cons]
      have hhead : (List.lookup v.internalName
          ((v.internalName, f i) :: (keyedFrom f rest (i + 1) ++ tail))) = some (f i) := by
        simp [List.lookup]
      rw [hhead]
      have htail : rest.map (fun o =>
          match (List.lookup o.internalName
            ((v.internalName, f i) :: (keyedFrom f rest (i + 1) ++ tail))) with
          | some k => k
          | none => dflt o) =
          rest.map (fun o =>
            match (keyedFrom f rest (i + 1) ++ tail).lookup o.internalName with
            | some k => k
            | none => dflt o) := by
        refine List.map_congr_left (fun o ho => ?_)
        have hne : (o.internalName == v.internalName) = false := by
          have : o.internalName ≠ v.internalName := by
            intro h
            exact hv (h ▸ List.mem_map_of_mem VarSet.internalName ho)
          simpa using this
        simp only [List.lookup, hne]
      rw [htail, ih (i + 1) hrest]
      simp only [List.length_cons, List.range_succ_eq_map, List.map_cons, List.map_map]
      congr 1
      refine List.map_congr_left (fun k _ => ?_)
      show f (i + 1 + k) = f (i + Nat.succ k)
      congr 1
      omega

/-- In a list with distinct internal names, filtering for a member's name
gives exactly that member. -/
theorem filter_eq_singleton_of_nodup (nm : String) (x : VarSet) :
    ∀ l : List VarSet, (l.map VarSet.internalName).Nodup → x ∈ l →
    x.internalName = nm →
    l.filter (fun o => decide (o.internalName = nm)) = [x] := by
  intro l
  induction l with
  | nil => intro _ hx; cases hx
  | cons a l ih =>
      intro hnd hx hxnm
      simp only [List.map_cons, List.nodup_cons] at hnd
      obtain ⟨ha, hl⟩ := hnd
      by_cases hanm : a.internalName = nm
      · have hax : x = a := by
          rcases List.mem_cons.mp hx with rfl | hx2
          · rfl
          · exfalso
            apply ha
            rw [hanm, ← hxnm]
            exact List.mem_map_of_mem VarSet.internalName hx2
        subst hax
        rw [List.filter_cons_of_pos (by simpa using hanm)]
        have hnil : l.filter (fun o => decide (o.internalName = nm)) = [] := by
          rw [List.filter_eq_nil_iff]
          intro o ho
          simp only [decide_eq_true_eq]
          intro honm
          exact ha (hanm ▸ honm ▸ List.mem_map_of_mem VarSet.internalName ho)
        rw [hnil]
      · have hx2 : x ∈ l := by
          rcases List.mem_cons.mp hx with rfl | h
          · exact absurd hxnm hanm
          · exact h
        rw [List.filter_cons_of_neg (by simpa using hanm)]
        exact ih hl hx2 hxnm

/-- The reorder loop finds no insertion point exactly when the seek target
lies at or past the end of the scanned window. -/
theorem firstTrigAbs_spec (seek : ExtInt) :
    ∀ (m pos : Nat), firstTrigAbs seek m pos = none ↔
      ∀ j, pos ≤ j → j < pos + m → trig seek j = false := by
  intro m
  induction m with
  | zero =>
      intro pos
      constructor
      · intro _ j h1 h2
        omega
      · intro _
        rfl
  | succ m ih =>
      intro pos
      constructor
      · intro h j h1 h2
        unfold firstTrigAbs at h
        split at h
        · cases h
        · rename_i htr
          rcases Nat.eq_or_lt_of_le h1 with rfl | hlt
          · exact Bool.not_eq_true _ |>.mp htr
          · exact (ih (pos + 1)).mp h j hlt (by omega)
      · intro h
        unfold firstTrigAbs
        rw [if_neg (by rw [h pos (Nat.le_refl pos) (by omega)]; simp)]
        exact (ih (pos + 1)).mpr (fun j h1 h2 => h j (by omega) (by omega))

/-- No insertion point means the clamped target is the last position. -/
theorem firstTrigAbs_none_iff (seek : ExtInt) (m : Nat) :
    firstTrigAbs seek m 0 = none ↔ (m = 0 ∨ seekGe seek (m : Int) = true) := by
  rw [firstTrigAbs_spec]
  cases seek with
  | negInf =>
      constructor
      · intro h
        by_cases hm : m = 0
        · exact Or.inl hm
        · have := h 0 (Nat.le_refl 0) (by omega)
          simp [trig] at this
      · intro h j h1 h2
        rcases h with h | h
        · omega
        · simp [seekGe] at h
  | posInf =>
      constructor
      · intro _
        exact Or.inr rfl
      · intro _ j _ _
        rfl
  | fin d =>
      constructor
      · intro h
        by_cases hm : m = 0
        · exact Or.inl hm
        · refine Or.inr ?_
          have hlast := h (m - 1) (by omega) (by omega)
          simp only [trig, decide_eq_false_iff_not, not_le] at hlast
          simp only [seekGe, decide_eq_true_eq]
          omega
      · intro h j h1 h2
        simp only [trig, decide_eq_false_iff_not, not_le]
        rcases h with h | h
        · omega
        · simp only [seekGe, decide_eq_true_eq] at h
          omega

/-- Inserting the vacated position back into the shifted range restores the
full range (as a permutation). -/
theorem shift_insert_perm : ∀ (m t : Nat), t ≤ m →
    (((List.range m).map (fun k => if t ≤ k then k + 1 else k)) ++ [t]).Perm
      (List.range (m + 1)) := by
  intro m
  induction m with
  | zero =>
      intro t ht
      have ht0 : t = 0 := by omega
      subst ht0
      decide
  | succ m ih =>
      intro t ht
      by_cases htm : t = m + 1
      · subst htm
        have hmap : (List.range (m + 1)).map
            (fun k => if m + 1 ≤ k then k + 1 else k) = List.range (m + 1) := by
          rw [show (List.range (m + 1)).map (fun k => if m + 1 ≤ k then k + 1 else k) =
              (List.range (m + 1)).map id from
            List.map_congr_left (fun k hk => by
              rw [if_neg (by simp only [List.mem_range] at hk; omega)]; rfl)]
          exact List.map_id _
        rw [hmap, ← List.range_succ]
      · have ht2 : t ≤ m := by omega
        rw [List.range_succ, List.map_append]
        simp only [List.map_cons, List.map_nil]
        rw [if_pos ht2]
        have hstep : ((List.range m).map (fun k => if t ≤ k then k + 1 else k)
              ++ [m + 1] ++ [t]).Perm
            ((List.range m).map (fun k => if t ≤ k then k + 1 else k) ++ [t] ++ [m + 1]) := by
          rw [List.append_assoc, List.append_assoc]
          exact List.Perm.append_left _ (List.perm_append_comm)
        refine hstep.trans ?_
        have hrec := (ih t ht2).append_right [m + 1]
        refine hrec.trans ?_
        rw [← List.range_succ]

/-- A row-key write never touches the internal name. -/
theorem row_upd_name (asg : List (String × Int)) (o : VarSet) :
    (row_upd asg o).internalName = o.internalName := by
  unfold row_upd
  cases asg.lookup o.internalName <;> rfl

/-- A row-key write never touches the group string. -/
theorem row_upd_groupOf (asg : List (String × Int)) (o : VarSet) :
    groupOf (row_upd asg o) = groupOf o := by
  unfold row_upd groupOf
  cases asg.lookup o.internalName <;> rfl

/-- A row-key write never changes whether an object is a managed varset. -/
theorem row_upd_isvar (asg : List (String × Int)) (o : VarSet) :
    is_var (row_upd asg o) = is_var o := by
  unfold is_var
  rw [row_upd_name]

/-- The row key after one write from the batch. -/
theorem row_upd_key (asg : List (String × Int)) (o : VarSet) :
    (row_upd asg o).sortKey =
      match asg.lookup o.internalName with
      | some k => k
      | none => o.sortKey := by
  unfold row_upd
  cases asg.lookup o.internalName <;> rfl

/-- The object list of a batch of row-key writes. -/
theorem apply_row_keys_objects (doc : Doc) (asg : List (String × Int)) :
    (apply_row_keys doc asg).objects = doc.objects.map (row_upd asg) := rfl

/-- Locating an object by name commutes with a batch of row-key writes. -/
theorem find_apply_row_keys (doc : Doc) (asg : List (String × Int)) (iname : String) :
    (apply_row_keys doc asg).objects.find? (fun o => o.internalName = iname) =
      (doc.objects.find? (fun o => o.internalName = iname)).map (row_upd asg) := by
  rw [apply_row_keys_objects, List.find?_map]
  have hp : ((fun o => decide (o.internalName = iname)) ∘ row_upd asg) =
      (fun o : VarSet => decide (o.internalName = iname)) := by
    funext o
    show decide ((row_upd asg o).internalName = iname) = decide (o.internalName = iname)
    rw [row_upd_name]
  rw [hp]

/-- Selecting a group's members commutes with a batch of row-key writes. -/
theorem filter_apply_row_keys (doc : Doc) (asg : List (String × Int)) (g : String) :
    (apply_row_keys doc asg).objects.filter (fun o => is_var o && groupOf o = g) =
      (doc.objects.filter (fun o => is_var o && groupOf o = g)).map (row_upd asg) := by
  rw [apply_row_keys_objects, List.filter_map]
  have hp : ((fun o => is_var o && decide (groupOf o = g)) ∘ row_upd asg) =
      (fun o : VarSet => is_var o && decide (groupOf o = g)) := by
    funext o
    show (is_var (row_upd asg o) && decide (groupOf (row_upd asg o) = g)) =
      (is_var o && decide (groupOf o = g))
    rw [row_upd_isvar, row_upd_groupOf]
  rw [hp]

/-- Selecting a group's members commutes with two consecutive batches of
row-key writes. -/
theorem filter_double_apply (doc : Doc) (asg1 asg2 : List (String × Int)) (g : String) :
    (apply_row_keys (apply_row_keys doc asg1) asg2).objects.filter
        (fun o => is_var o && groupOf o = g) =
      (doc.objects.filter (fun o => is_var o && groupOf o = g)).map
        (fun o => row_upd asg2 (row_upd asg1 o)) := by
  rw [filter_apply_row_keys, filter_apply_row_keys, List.map_map]
  rfl

/-- Master characterization of `Variable.reorder`: afterwards the affected
group consists (up to order) of the moved variable, carrying the key
`reorder_self_key`, and the remaining members, carrying the shifted dense
keys of the renumbering loop. -/
theorem reorder_members (doc : Doc) (iname : String) (delta : ExtInt) (self : VarSet)
    (hfind : doc.objects.find? (fun o => o.internalName = iname) = some self)
    (hvar : is_var self = true)
    (hnd : (doc.objects.map VarSet.internalName).Nodup) :
    ∃ self' : VarSet, ∃ others' : List VarSet,
      ((Variable.reorder doc iname delta).objects.filter
          (fun o => is_var o && groupOf o = groupOf self)).Perm (self' :: others') ∧
      self'.internalName = iname ∧
      groupOf self' = groupOf self ∧
      self'.sortKey = reorder_self_key (group_size doc (groupOf self))
        (reorder_trig_point doc (groupOf self) iname delta) ∧
      (∀ o ∈ others', groupOf o = groupOf self ∧ o.internalName ≠ iname) ∧
      others'.map VarSet.sortKey =
        (List.range (group_size doc (groupOf self) - 1)).map
          (reorder_shift (reorder_trig_point doc (groupOf self) iname delta)) := by
  have hself_mem : self ∈ doc.objects := List.mem_of_find?_eq_some hfind
  have hself_name : self.internalName = iname := by
    simpa using List.find?_some hfind
  set g := groupOf self with hgdef
  have hmem_self : self ∈ doc.objects.filter (fun o => is_var o && groupOf o = g) :=
    List.mem_filter.mpr ⟨hself_mem, by simp [hvar, hgdef]⟩
  have hnd_members : ((doc.objects.filter
      (fun o => is_var o && groupOf o = g)).map VarSet.internalName).Nodup := by
    have hsub : List.Sublist ((doc.objects.filter
        (fun o => is_var o && groupOf o = g)).map VarSet.internalName)
        (doc.objects.map VarSet.internalName) :=
      (List.filter_sublist _).map _
    exact List.Nodup.sublist hsub hnd
  set gv := sorted_group_vars doc g with hgvdef
  have hperm_gv : gv.Perm (doc.objects.filter (fun o => is_var o && groupOf o = g)) := by
    rw [hgvdef]
    unfold sorted_group_vars
    exact stable_sort_perm _ _
  have hnd_gv : (gv.map VarSet.internalName).Nodup :=
    ((hperm_gv.map VarSet.internalName).nodup_iff).mpr hnd_members
  have hself_gv : self ∈ gv := hperm_gv.mem_iff.mpr hmem_self
  have hlen_gv : gv.length = group_size doc g := by
    rw [hperm_gv.length_eq]
    rfl
  have hin_names : iname ∈ gv.map VarSet.internalName :=
    hself_name ▸ List.mem_map_of_mem VarSet.internalName hself_gv
  have hrowrank : row_rank doc g iname = gv.findIdx (fun o => o.internalName = iname) := by
    rw [hgvdef]
    rfl
  have hbase : ((((apply_row_keys doc (keyedFrom (fun i => (i : Int)) gv 0)).objects.find?
      (fun o => o.internalName = iname)).map (fun o => o.sortKey)).getD 0) =
      ((row_rank doc g iname : Nat) : Int) := by
    rw [find_apply_row_keys, hfind]
    show (row_upd (keyedFrom (fun i => (i : Int)) gv 0) self).sortKey = _
    rw [row_upd_key, hself_name, lookup_keyedFrom_mem _ iname gv 0 hin_names]
    show (((0 + gv.findIdx (fun o => o.internalName = iname)) : Nat) : Int) = _
    rw [Nat.zero_add, hrowrank]
  have hres : Variable.reorder doc iname delta =
      apply_row_keys (apply_row_keys doc (keyedFrom (fun i => (i : Int)) gv 0))
        ((reorder_loop (seekOf ((((apply_row_keys doc (keyedFrom (fun i => (i : Int)) gv 0)).objects.find? (fun o => o.internalName = iname)).map (fun o => o.sortKey)).getD 0) delta) (gv.filter (fun v => v.internalName ≠ iname)) 0 0 (-1)).1 ++
          [(iname, if (reorder_loop (seekOf ((((apply_row_keys doc (keyedFrom (fun i => (i : Int)) gv 0)).objects.find? (fun o => o.internalName = iname)).map (fun o => o.sortKey)).getD 0) delta) (gv.filter (fun v => v.internalName ≠ iname)) 0 0 (-1)).2 > -1 then (reorder_loop (seekOf ((((apply_row_keys doc (keyedFrom (fun i => (i : Int)) gv 0)).objects.find? (fun o => o.internalName = iname)).map (fun o => o.sortKey)).getD 0) delta) (gv.filter (fun v => v.internalName ≠ iname)) 0 0 (-1)).2 else (gv.length : Int))]) := by
    unfold Variable.reorder
    rw [hfind]
  rw [hbase] at hres
  set others := gv.filter (fun v => v.internalName ≠ iname) with hothdef
  have hiname_not : iname ∉ others.map VarSet.internalName := by
    intro hmem2
    obtain ⟨o, ho, hoe⟩ := List.mem_map.mp hmem2
    rw [hothdef] at ho
    have hpred := List.of_mem_filter ho
    simp only [ne_eq, decide_not, Bool.not_eq_eq_eq_not, Bool.not_true,
      decide_eq_false_iff_not] at hpred
    exact hpred hoe
  have hnd_others : (others.map VarSet.internalName).Nodup := by
    rw [hothdef]
    exact List.Nodup.sublist ((List.filter_sublist gv).map _) hnd_gv
  have hsplit : (self :: others).Perm gv := by
    have hfilt_self : gv.filter (fun o => decide (o.internalName = iname)) = [self] :=
      filter_eq_singleton_of_nodup iname self gv hnd_gv hself_gv hself_name
    have hp := List.filter_append_perm (fun o => decide (o.internalName = iname)) gv
    rw [hfilt_self] at hp
    have heq : gv.filter (fun o => !(decide (o.internalName = iname))) = others := by
      rw [hothdef]
      refine List.filter_congr ?_
      intro v _
      simp only [ne_eq, decide_not]
    rw [heq] at hp
    exact hp
  have hm : others.length = group_size doc g - 1 := by
    have h1 := hsplit.length_eq
    simp only [List.length_cons] at h1
    rw [hlen_gv] at h1
    omega
  set tp := reorder_trig_point doc g iname delta with htpdef
  have htp : firstTrigAbs (seekOf ((row_rank doc g iname : Nat) : Int) delta)
      others.length 0 = tp := by
    rw [hm, htpdef]
    rfl
  have hloop := reorder_loop_untriggered
    (seekOf ((row_rank doc g iname : Nat) : Int) delta) others 0
  rw [htp] at hloop
  have hlr1 : (reorder_loop (seekOf ((row_rank doc g iname : Nat) : Int) delta)
      others 0 0 (-1)).1 = keyedFrom (reorder_shift tp) others 0 := by
    rw [hloop]
    clear_value tp
    cases tp with
    | none => exact keyedFrom_congr _ _ others 0 (fun j _ => rfl)
    | some t => exact keyedFrom_congr _ _ others 0 (fun j _ => rfl)
  have hsk : (if (reorder_loop (seekOf ((row_rank doc g iname : Nat) : Int) delta)
        others 0 0 (-1)).2 > -1
      then (reorder_loop (seekOf ((row_rank doc g iname : Nat) : Int) delta)
        others 0 0 (-1)).2
      else (gv.length : Int)) = reorder_self_key (group_size doc g) tp := by
    rw [hloop, hlen_gv]
    clear_value tp
    cases tp with
    | none =>
        show (if (-1 : Int) > -1 then (-1 : Int) else (group_size doc g : Int)) =
          reorder_self_key (group_size doc g) none
        rw [if_neg (by omega)]
        rfl
    | some t =>
        show (if (t : Int) > -1 then (t : Int) else (group_size doc g : Int)) =
          reorder_self_key (group_size doc g) (some t)
        rw [if_pos (by omega)]
        rfl
  rw [hlr1, hsk] at hres
  set asg1 := keyedFrom (fun i => (i : Int)) gv 0 with hasg1
  set asg2 := keyedFrom (reorder_shift tp) others 0 ++
    [(iname, reorder_self_key (group_size doc g) tp)] with hasg2
  have hfilter : (Variable.reorder doc iname delta).objects.filter
      (fun o => is_var o && groupOf o = g) =
      (doc.objects.filter (fun o => is_var o && groupOf o = g)).map
        (fun o => row_upd asg2 (row_upd asg1 o)) := by
    rw [hres]
    exact filter_double_apply doc asg1 asg2 g
  have hpermU : ((Variable.reorder doc iname delta).objects.filter
      (fun o => is_var o && groupOf o = g)).Perm
      ((self :: others).map (fun o => row_upd asg2 (row_upd asg1 o))) := by
    rw [hfilter]
    exact (hperm_gv.symm.trans hsplit.symm).map _
  refine ⟨row_upd asg2 (row_upd asg1 self),
    others.map (fun o => row_upd asg2 (row_upd asg1 o)), ?_, ?_, ?_, ?_, ?_, ?_⟩
  · exact hpermU
  · rw [row_upd_name, row_upd_name]
    exact hself_name
  · rw [row_upd_groupOf, row_upd_groupOf, hgdef]
  · rw [row_upd_key, row_upd_name, hself_name]
    have hlu : asg2.lookup iname =
        some (reorder_self_key (group_size doc g) tp) := by
      rw [hasg2, lookup_append,
        lookup_keyedFrom_notmem (reorder_shift tp) iname others 0 hiname_not]
      show List.lookup iname [(iname, reorder_self_key (group_size doc g) tp)] = _
      simp [List.lookup]
    rw [hlu]
  · intro o ho
    obtain ⟨x, hx, rfl⟩ := List.mem_map.mp ho
    rw [hothdef] at hx
    constructor
    · have hxg : x ∈ gv := (List.filter_sublist gv).subset hx
      have hxm := hperm_gv.subset hxg
      have hp := List.of_mem_filter hxm
      simp only [Bool.and_eq_true, decide_eq_true_eq] at hp
      rw [row_upd_groupOf, row_upd_groupOf]
      exact hp.2
    · rw [row_upd_name, row_upd_name]
      have hp2 := List.of_mem_filter hx
      simp only [ne_eq, decide_not, Bool.not_eq_eq_eq_not, Bool.not_true,
        decide_eq_false_iff_not] at hp2
      exact hp2
  · rw [List.map_map]
    have hmm := map_match_keyedFrom (reorder_shift tp)
      [(iname, reorder_self_key (group_size doc g) tp)]
      (fun o => (row_upd asg1 o).sortKey) others 0 hnd_others
    have hpt : (VarSet.sortKey ∘ fun o => row_upd asg2 (row_upd asg1 o)) =
        (fun o => match (keyedFrom (reorder_shift tp) others 0 ++
            [(iname, reorder_self_key (group_size doc g) tp)]).lookup o.internalName with
          | some k => k
          | none => (row_upd asg1 o).sortKey) := by
      funext o
      show (row_upd asg2 (row_upd asg1 o)).sortKey = _
      rw [row_upd_key, row_upd_name, hasg2]
    have hmm2 : (List.range others.length).map (fun k => reorder_shift tp (0 + k)) =
        (List.range (group_size doc g - 1)).map (reorder_shift tp) := by
      rw [hm]
      refine List.map_congr_left (fun k _ => ?_)
      rw [Nat.zero_add]
    rw [hpt]
    exact hmm.trans hmm2

/-- The dense key multiset, as a coerced list. -/
theorem dense_range_coe (n : Nat) :
    dense_range n = (((List.range n).map (fun (k : Nat) => (k : Int)) : List Int) : Multiset Int) := by
  unfold dense_range
  rfl

/-- The last-slot key multiset, as a coerced list. -/
theorem last_slot_keys_coe (n : Nat) :
    last_slot_keys n =
      ((((List.range (n - 1)).map (fun (k : Nat) => (k : Int)) ++ [(n : Int)]) : List Int) :
        Multiset Int) := by
  unfold last_slot_keys
  rw [dense_range_coe]
  rfl

/-- Counting is pointwise. -/
theorem countP_pointwise {α : Type} (p q : α → Bool) :
    ∀ l : List α, (∀ a ∈ l, p a = q a) → l.countP p = l.countP q := by
  intro l
  induction l with
  | nil => intro _; rfl
  | cons a l ih =>
      intro h
      rw [List.countP_cons, List.countP_cons, h a (List.mem_cons_self _ _),
        ih (fun b hb => h b (List.mem_cons_of_mem _ hb))]

/-- Rank of a uniquely named member of a one-group member list whose row
key collides with no other member: its sorted position is the number of
members with a strictly smaller key. -/
theorem rank_of_distinct_key (L : List VarSet) (x : VarSet) (iname g : String)
    (hx : x ∈ L) (hxn : x.internalName = iname)
    (hgrp : ∀ o ∈ L, groupOf o = g)
    (huniq : ∀ y ∈ L, y.internalName = iname → y = x)
    (hkeydist : ∀ y ∈ L, y ≠ x → y.sortKey ≠ x.sortKey) :
    (stable_sort row_le L).findIdx (fun o => o.internalName = iname) =
      L.countP (fun y => decide (y.sortKey < x.sortKey)) := by
  have hsorted := sorted_stable_sort row_le row_le_total row_le_trans L
  have hpermS := stable_sort_perm row_le L
  have hxS : x ∈ stable_sort row_le L := hpermS.mem_iff.mpr hx
  have hqS : ∀ y ∈ stable_sort row_le L,
      (decide (y.internalName = iname) = true) ↔ y = x := by
    intro y hy
    constructor
    · intro hqy
      exact huniq y (hpermS.subset hy) (by simpa using hqy)
    · rintro rfl
      simpa using hxn
  have hantiS : ∀ y ∈ stable_sort row_le L,
      row_le y x = true → row_le x y = true → y = x := by
    intro y hy h1 h2
    by_contra hne
    have hyL := hpermS.subset hy
    have hgy : groupOf y = g := hgrp y hyL
    have hgx : groupOf x = g := hgrp x hx
    have hkne : y.sortKey ≠ x.sortKey := hkeydist y hyL hne
    unfold row_le at h1 h2
    rw [if_pos (by rw [hgy, hgx])] at h1
    rw [if_pos (by rw [hgy, hgx])] at h2
    rw [if_neg hkne] at h1
    rw [if_neg (fun h => hkne h.symm)] at h2
    simp only [decide_eq_true_eq] at h1 h2
    omega
  have hfi := sorted_findIdx_eq_countP row_le (fun o => decide (o.internalName = iname))
    x (stable_sort row_le L) hsorted hxS hqS hantiS
  rw [hfi, hpermS.countP_eq]
  refine countP_pointwise _ _ L ?_
  intro y hy
  by_cases hyx : y = x
  · subst hyx
    cases h : row_le y y <;> simp [h]
  · have hgy : groupOf y = g := hgrp y hy
    have hgx : groupOf x = g := hgrp x hx
    have hkne : y.sortKey ≠ x.sortKey := hkeydist y hy hyx
    have hgg : groupOf y = groupOf x := by rw [hgy, hgx]
    unfold row_le
    rw [if_pos hgg, if_pos hgg.symm, if_neg hkne, if_neg (fun h => hkne h.symm)]
    by_cases hlt : y.sortKey < x.sortKey
    · have hnlt : ¬ x.sortKey < y.sortKey := by omega
      simp [hlt, hnlt]
    · simp [hlt]

/-- The rank the moved variable ends at: the number of shifted keys of the
remaining members lying strictly below its own key. -/
theorem reorder_rank (doc : Doc) (iname : String) (delta : ExtInt) (self : VarSet)
    (hfind : doc.objects.find? (fun o => o.internalName = iname) = some self)
    (hvar : is_var self = true)
    (hnd : (doc.objects.map VarSet.internalName).Nodup) :
    row_rank (Variable.reorder doc iname delta) (groupOf self) iname =
      ((List.range (group_size doc (groupOf self) - 1)).map
        (reorder_shift (reorder_trig_point doc (groupOf self) iname delta))).countP
        (fun k => decide (k < reorder_self_key (group_size doc (groupOf self))
          (reorder_trig_point doc (groupOf self) iname delta))) := by
  obtain ⟨self', others', hperm, hname, hgrp, hkey, hoth, hkeys⟩ :=
    reorder_members doc iname delta self hfind hvar hnd
  have hselfL : self' ∈ (Variable.reorder doc iname delta).objects.filter
      (fun o => is_var o && groupOf o = groupOf self) :=
    hperm.symm.subset (List.mem_cons_self _ _)
  have hgrpL : ∀ o ∈ (Variable.reorder doc iname delta).objects.filter
      (fun o => is_var o && groupOf o = groupOf self), groupOf o = groupOf self := by
    intro o ho
    rcases List.mem_cons.mp (hperm.subset ho) with rfl | h2
    · exact hgrp
    · exact (hoth o h2).1
  have huniqL : ∀ y ∈ (Variable.reorder doc iname delta).objects.filter
      (fun o => is_var o && groupOf o = groupOf self),
      y.internalName = iname → y = self' := by
    intro y hy hyn
    rcases List.mem_cons.mp (hperm.subset hy) with rfl | h2
    · rfl
    · exact absurd hyn (hoth y h2).2
  have hkeyL : ∀ y ∈ (Variable.reorder doc iname delta).objects.filter
      (fun o => is_var o && groupOf o = groupOf self),
      y ≠ self' → y.sortKey ≠ self'.sortKey := by
    intro y hy hne
    have h2 : y ∈ others' := by
      rcases List.mem_cons.mp (hperm.subset hy) with rfl | h2
      · exact absurd rfl hne
      · exact h2
    have hmem : y.sortKey ∈ others'.map VarSet.sortKey := List.mem_map_of_mem _ h2
    rw [hkeys] at hmem
    obtain ⟨k, hk, hks⟩ := List.mem_map.mp hmem
    rw [List.mem_range] at hk
    rw [hkey, ← hks]
    cases htpc : reorder_trig_point doc (groupOf self) iname delta with
    | none =>
        show (k : Int) ≠ (group_size doc (groupOf self) : Int)
        omega
    | some t =>
        show (if t ≤ k then (k : Int) + 1 else (k : Int)) ≠ (t : Int)
        by_cases h : t ≤ k
        · rw [if_pos h]
          omega
        · rw [if_neg h]
          omega
  have hrk := rank_of_distinct_key ((Variable.reorder doc iname delta).objects.filter
      (fun o => is_var o && groupOf o = groupOf self)) self' iname (groupOf self)
    hselfL hname hgrpL huniqL hkeyL
  show (stable_sort row_le ((Variable.reorder doc iname delta).objects.filter
      (fun o => is_var o && groupOf o = groupOf self))).findIdx
      (fun o => o.internalName = iname) = _
  rw [hrk, hperm.countP_eq, List.countP_cons]
  have hps : decide (self'.sortKey < self'.sortKey) = false := by simp
  rw [hps]
  simp only [Bool.false_eq_true, if_false, Nat.add_zero]
  rw [hkey, ← hkeys, List.countP_map]
  exact countP_pointwise _ _ others' (fun a _ => rfl)

/-- `group_le` is total. -/
theorem group_le_total (a b : String × Int) : (group_le a b || group_le b a) = true := by
  unfold group_le
  by_cases hk : a.2 = b.2
  · rw [if_pos hk, if_pos hk.symm]
    exact charsLe_total _ _
  · rw [if_neg hk, if_neg (fun h => hk h.symm)]
    rcases Int.lt_or_lt_of_ne hk with h | h
    · simp [h]
    · simp [h]

/-- `group_le` is transitive. -/
theorem group_le_trans (a b c : String × Int) (hab : group_le a b = true)
    (hbc : group_le b c = true) : group_le a c = true := by
  unfold group_le at hab hbc ⊢
  by_cases hk1 : a.2 = b.2 <;> by_cases hk2 : b.2 = c.2
  · rw [if_pos hk1] at hab
    rw [if_pos hk2] at hbc
    rw [if_pos (hk1.trans hk2)]
    exact charsLe_trans _ _ _ hab hbc
  · rw [if_pos hk1] at hab
    rw [if_neg hk2] at hbc
    rw [if_neg (fun h => hk2 (hk1 ▸ h)), hk1]
    exact hbc
  · rw [if_neg hk1] at hab
    rw [if_pos hk2] at hbc
    rw [if_neg (fun h => hk1 (h.trans hk2.symm)), ← hk2]
    exact hab
  · rw [if_neg hk1] at hab
    rw [if_neg hk2] at hbc
    simp only [decide_eq_true_eq] at hab hbc
    have hlt : a.2 < c.2 := hab.trans hbc
    rw [if_neg (fun h => absurd (h ▸ hlt) (lt_irrefl _))]
    simpa using hlt

/-- A lookup misses exactly the names outside the association list. -/
theorem lookup_none_iff (nm : String) :
    ∀ l : List (String × Int), l.lookup nm = none ↔ nm ∉ l.map Prod.fst := by
  intro l
  induction l with
  | nil => simp [List.lookup]
  | cons p l ih =>
      by_cases hg : nm == p.1
      · have he : nm = p.1 := eq_of_beq hg
        simp [List.lookup, hg, he]
      · have hne : nm ≠ p.1 := fun h => hg (by simp [h])
        simp [List.lookup, hg, hne, ih]

/-- One step of the `groupsData` fold. -/
theorem groupsDataFrom_cons (acc : List (String × Int)) (o : VarSet) (l : List VarSet) :
    groupsDataFrom acc (o :: l) =
      groupsDataFrom (if (acc.lookup (groupOf o)).isSome then acc
        else acc ++ [(groupOf o, o.groupSortKey)]) l := rfl

/-- The `groupsData` scan never records a group name twice. -/
theorem groupsDataFrom_names_nodup :
    ∀ (l : List VarSet) (acc : List (String × Int)),
    (acc.map Prod.fst).Nodup → ((groupsDataFrom acc l).map Prod.fst).Nodup := by
  intro l
  induction l with
  | nil => intro acc h; exact h
  | cons o l ih =>
      intro acc h
      rw [groupsDataFrom_cons]
      by_cases hin : (acc.lookup (groupOf o)).isSome
      · rw [if_pos hin]
        exact ih acc h
      · rw [if_neg hin]
        refine ih _ ?_
        rw [List.map_append]
        have hnot : groupOf o ∉ acc.map Prod.fst := by
          rw [← lookup_none_iff]
          cases hc : acc.lookup (groupOf o)
          · rfl
          · exact absurd (by rw [hc]; rfl) hin
        simp [List.nodup_append, h, hnot]

/-- The group names recorded by the scan are distinct. -/
theorem groupsData_names_nodup (l : List VarSet) :
    ((groupsData l).map Prod.fst).Nodup :=
  groupsDataFrom_names_nodup l [] (by simp)

/-- Rewriting every value through its key commutes with lookup. -/
theorem lookup_map_value (K : String → Int) (nm : String) :
    ∀ l : List (String × Int),
    (l.map (fun p => (p.1, K p.1))).lookup nm = (l.lookup nm).map (fun _ => K nm) := by
  intro l
  induction l with
  | nil => rfl
  | cons p l ih =>
      by_cases hg : nm == p.1
      · have he : nm = p.1 := eq_of_beq hg
        simp [List.lookup, hg, he]
      · simp [List.lookup, hg, ih]

/-- Selecting the managed varsets commutes with a `var`-preserving map. -/
theorem filter_map_is_var (F : VarSet → VarSet)
    (hiv : ∀ o, is_var (F o) = is_var o) (l : List VarSet) :
    (l.map F).filter is_var = (l.filter is_var).map F := by
  rw [List.filter_map]
  refine congrArg (List.map F) (List.filter_congr ?_)
  intro o _
  exact hiv o

/-- A group-preserving rewrite of every variable's `GroupSortKey` through a
key function rewrites the scan's values through the same function. -/
theorem groupsDataFrom_map_key (K : String → Int) (F : VarSet → VarSet)
    (hg : ∀ o, groupOf (F o) = groupOf o) :
    ∀ (l : List VarSet) (acc : List (String × Int)),
    (∀ o ∈ l, (F o).groupSortKey = K (groupOf o)) →
    groupsDataFrom (acc.map (fun p => (p.1, K p.1))) (l.map F) =
      (groupsDataFrom acc l).map (fun p => (p.1, K p.1)) := by
  intro l
  induction l with
  | nil => intro acc _; rfl
  | cons o l ih =>
      intro acc hk
      rw [List.map_cons, groupsDataFrom_cons, groupsDataFrom_cons]
      rw [hg o, lookup_map_value]
      have hiso : (Option.map (fun _ => K (groupOf o))
          (List.lookup (groupOf o) acc)).isSome =
          (List.lookup (groupOf o) acc).isSome := by
        cases List.lookup (groupOf o) acc <;> rfl
      by_cases hin : (acc.lookup (groupOf o)).isSome
      · rw [if_pos (by rw [hiso]; exact hin), if_pos hin]
        exact ih acc (fun b hb => hk b (List.mem_cons_of_mem _ hb))
      · rw [if_neg (by rw [hiso]; exact hin), if_neg hin]
        have hrow : acc.map (fun p => (p.1, K p.1)) ++
            [(groupOf o, (F o).groupSortKey)] =
            (acc ++ [(groupOf o, o.groupSortKey)]).map (fun p => (p.1, K p.1)) := by
          rw [List.map_append]
          rw [hk o (List.mem_cons_self _ _)]
          rfl
        rw [hrow]
        exact ih _ (fun b hb => hk b (List.mem_cons_of_mem _ hb))

/-- `groupsData` after a group-preserving rewrite of every key. -/
theorem groupsData_map_key (K : String → Int) (F : VarSet → VarSet)
    (hg : ∀ o, groupOf (F o) = groupOf o) (l : List VarSet)
    (hk : ∀ o ∈ l, (F o).groupSortKey = K (groupOf o)) :
    groupsData (l.map F) = (groupsData l).map (fun p => (p.1, K p.1)) :=
  groupsDataFrom_map_key K F hg l [] hk

/-- Inserting at a position permutes to consing. -/
theorem perm_insertIdx {α : Type} (x : α) :
    ∀ (i : Nat) (l : List α), i ≤ l.length → (l.insertIdx i x).Perm (x :: l) := by
  intro i
  induction i with
  | zero =>
      intro l _
      exact List.Perm.refl _
  | succ i ih =>
      intro l hl
      cases l with
      | nil =>
          exact absurd hl (by simp)
      | cons a l =>
          show (a :: l.insertIdx i x).Perm (x :: a :: l)
          exact (List.Perm.cons a (ih l
            (by simp only [List.length_cons] at hl; omega))).trans (List.Perm.swap x a l)

/-- The element at a position comes back by consing onto the erasure. -/
theorem eraseIdx_cons_perm {α : Type} :
    ∀ (l : List α) (i : Nat) (x : α), l.get? i = some x →
    (x :: l.eraseIdx i).Perm l := by
  intro l
  induction l with
  | nil => intro i x h; cases h
  | cons a l ih =>
      intro i x h
      cases i with
      | zero =>
          cases h
          exact List.Perm.refl _
      | succ i =>
          show (x :: a :: l.eraseIdx i).Perm (a :: l)
          exact (List.Perm.swap a x _).trans (List.Perm.cons a (ih i x h))

/-- A name absent from the list is not found by the position scan. -/
theorem enumFrom_find_none (gname : String) :
    ∀ (L : List (String × Int)) (k : Nat), gname ∉ L.map Prod.fst →
    (L.enumFrom k).find? (fun p => p.2.1 = gname) = none := by
  intro L
  induction L with
  | nil => intro k _; rfl
  | cons a L ih =>
      intro k hnm
      simp only [List.map_cons, List.mem_cons] at hnm
      push_neg at hnm
      show List.find? (fun p => decide (p.2.1 = gname))
        ((k, a) :: L.enumFrom (k + 1)) = none
      rw [List.find?_cons_of_neg _ (by
        simp only [decide_eq_true_eq]
        exact fun h => hnm.1 h.symm)]
      exact ih (k + 1) hnm.2

/-- A present name is found by the position scan. -/
theorem enumFrom_find_isSome (gname : String) :
    ∀ (L : List (String × Int)) (k : Nat), gname ∈ L.map Prod.fst →
    ((L.enumFrom k).find? (fun p => p.2.1 = gname)).isSome = true := by
  intro L
  induction L with
  | nil => intro k h; cases h
  | cons a L ih =>
      intro k hm
      show (List.find? (fun p => decide (p.2.1 = gname))
        ((k, a) :: L.enumFrom (k + 1))).isSome = true
      by_cases ha : a.1 = gname
      · rw [List.find?_cons_of_pos _ (by simpa using ha)]
        rfl
      · rw [List.find?_cons_of_neg _ (by simpa using ha)]
        refine ih (k + 1) ?_
        simp only [List.map_cons, List.mem_cons] at hm
        rcases hm with h | h
        · exact absurd h.symm ha
        · exact h

/-- Scanning an insertion whose name is fresh elsewhere finds exactly the
inserted entry, at its insertion position. -/
theorem enumFrom_find_insertIdx (gname : String) (x : String × Int)
    (hx : x.1 = gname) :
    ∀ (pos : Nat) (L : List (String × Int)) (k : Nat), pos ≤ L.length →
    gname ∉ L.map Prod.fst →
    ((L.insertIdx pos x).enumFrom k).find? (fun p => p.2.1 = gname) =
      some (k + pos, x) := by
  intro pos
  induction pos with
  | zero =>
      intro L k _ _
      show List.find? (fun p => decide (p.2.1 = gname))
        ((k, x) :: L.enumFrom (k + 1)) = _
      rw [List.find?_cons_of_pos _ (by simpa using hx)]
      rfl
  | succ pos ih =>
      intro L k hlen hnm
      cases L with
      | nil => exact absurd hlen (by simp)
      | cons a L =>
          simp only [List.map_cons, List.mem_cons] at hnm
          push_neg at hnm
          show List.find? (fun p => decide (p.2.1 = gname))
            ((k, a) :: (L.insertIdx pos x).enumFrom (k + 1)) = some (k + (pos + 1), x)
          rw [List.find?_cons_of_neg _ (by
            simp only [decide_eq_true_eq]
            exact fun h => hnm.1 h.symm)]
          rw [ih L (k + 1) (by simp only [List.length_cons] at hlen; omega) hnm.2]
          have harith : k + 1 + pos = k + (pos + 1) := by omega
          rw [harith]

/-- Mapping every entry to its own scan position enumerates the indices. -/
theorem map_find_enumFrom (dflt : (String × Int) → Int) :
    ∀ (L : List (String × Int)) (k : Nat), (L.map Prod.fst).Nodup →
    L.map (fun e => match (L.enumFrom k).find? (fun p => p.2.1 = e.1) with
      | some q => ((q.1 : Nat) : Int)
      | none => dflt e) =
      (List.range L.length).map (fun i => ((k + i : Nat) : Int)) := by
  intro L
  induction L with
  | nil => intro k _; rfl
  | cons a L ih =>
      intro k hnd
      simp only [List.map_cons, List.nodup_cons] at hnd
      obtain ⟨ha, hL⟩ := hnd
      have hEF : (a :: L).enumFrom k = (k, a) :: L.enumFrom (k + 1) := rfl
      simp only [List.map_cons, hEF]
      have hhead : List.find? (fun p => decide (p.2.1 = a.1))
          ((k, a) :: L.enumFrom (k + 1)) = some (k, a) :=
        List.find?_cons_of_pos _ (by simp)
      rw [hhead]
      have htail : L.map (fun e =>
          match List.find? (fun p => decide (p.2.1 = e.1))
            ((k, a) :: L.enumFrom (k + 1)) with
          | some q => ((q.1 : Nat) : Int)
          | none => dflt e) =
          L.map (fun e =>
            match List.find? (fun p => decide (p.2.1 = e.1)) (L.enumFrom (k + 1)) with
            | some q => ((q.1 : Nat) : Int)
            | none => dflt e) := by
        refine List.map_congr_left (fun e he => ?_)
        have hne : ¬((fun p => decide (p.2.1 = e.1)) ((k, a)) = true) := by
          simp only [decide_eq_true_eq]
          intro h
          exact ha (by rw [h]; exact List.mem_map_of_mem Prod.fst he)
        have hskip : List.find? (fun p => decide (p.2.1 = e.1))
            ((k, a) :: List.enumFrom (k + 1) L) =
            List.find? (fun p => decide (p.2.1 = e.1)) (List.enumFrom (k + 1) L) :=
          List.find?_cons_of_neg _ hne
        rw [hskip]
      rw [htail, ih (k + 1) hL]
      simp only [List.length_cons, List.range_succ_eq_map, List.map_cons, List.map_map]
      congr 1
      refine List.map_congr_left (fun i _ => ?_)
      show ((k + 1 + i : Nat) : Int) = ((k + Nat.succ i : Nat) : Int)
      congr 1
      omega

/-- Counting the naturals below a bound inside an initial segment. -/
theorem countP_range_lt (c : Nat) : ∀ m : Nat,
    (List.range m).countP (fun i => decide (i < c)) = min c m := by
  intro m
  induction m with
  | zero => simp
  | succ m ih =>
      rw [List.range_succ, List.countP_append, ih]
      have hone : List.countP (fun i => decide (i < c)) [m] =
          if m < c then 1 else 0 := by
        by_cases h : m < c <;> simp [List.countP_cons, h]
      rw [hone]
      by_cases h : m < c
      · rw [if_pos h]
        omega
      · rw [if_neg h]
        omega

/-- Rank of a uniquely named group entry with a collision-free key in the
`(key, name)`-sorted order: the number of entries with a smaller key. -/
theorem group_rank_of_distinct_key (L : List (String × Int)) (x : String × Int)
    (gname : String) (hx : x ∈ L) (hxn : x.1 = gname)
    (hinj : ∀ y ∈ L, y.2 = x.2 → y = x)
    (huniq : ∀ y ∈ L, y.1 = gname → y = x) :
    (stable_sort group_le L).findIdx (fun p => p.1 = gname) =
      L.countP (fun y => decide (y.2 < x.2)) := by
  have hsorted := sorted_stable_sort group_le group_le_total group_le_trans L
  have hpermS := stable_sort_perm group_le L
  have hxS : x ∈ stable_sort group_le L := hpermS.mem_iff.mpr hx
  have hqS : ∀ y ∈ stable_sort group_le L, (decide (y.1 = gname) = true) ↔ y = x := by
    intro y hy
    constructor
    · intro hqy
      exact huniq y (hpermS.subset hy) (by simpa using hqy)
    · rintro rfl
      simpa using hxn
  have hantiS : ∀ y ∈ stable_sort group_le L,
      group_le y x = true → group_le x y = true → y = x := by
    intro y hy h1 h2
    by_cases hk : y.2 = x.2
    · exact hinj y (hpermS.subset hy) hk
    · exfalso
      unfold group_le at h1 h2
      rw [if_neg hk] at h1
      rw [if_neg (fun h => hk h.symm)] at h2
      simp only [decide_eq_true_eq] at h1 h2
      omega
  have hfi := sorted_findIdx_eq_countP group_le (fun p => decide (p.1 = gname)) x
    (stable_sort group_le L) hsorted hxS hqS hantiS
  rw [hfi, hpermS.countP_eq]
  refine countP_pointwise _ _ L ?_
  intro y hy
  by_cases hyx : y = x
  · subst hyx
    cases h : group_le y y <;> simp [h]
  · have hk : y.2 ≠ x.2 := fun h => hyx (hinj y hy h)
    unfold group_le
    rw [if_neg hk, if_neg (fun h => hk h.symm)]
    by_cases hlt : y.2 < x.2
    · have hnlt : ¬ x.2 < y.2 := by omega
      simp [hlt, hnlt]
    · simp [hlt]

/-- The clamped move target of `reorder_group`, in the source's phrasing. -/
theorem new_pos_eq_clamped (cur m : Nat) (delta : ExtInt) :
    (max 0 (min (match delta with
      | .negInf => 0
      | .posInf => (m : Int) - 1
      | .fin d => (cur : Int) + d) ((m : Int) - 1))).toNat =
      clamped_target cur m delta := by
  cases delta with
  | negInf =>
      show (max 0 (min 0 ((m : Int) - 1))).toNat = 0
      omega
  | posInf =>
      show (max 0 (min ((m : Int) - 1) ((m : Int) - 1))).toNat = m - 1
      omega
  | fin d => rfl

/-- Membership in the position scan pins the element at its index. -/
theorem mem_enumFrom_get {α : Type} :
    ∀ (l : List α) (k : Nat) (p : Nat × α), p ∈ l.enumFrom k →
    k ≤ p.1 ∧ l.get? (p.1 - k) = some p.2 := by
  intro l
  induction l with
  | nil => intro k p h; cases h
  | cons a l ih =>
      intro k p h
      rcases List.mem_cons.mp (show p ∈ (k, a) :: l.enumFrom (k + 1) from h) with rfl | h2
      · refine ⟨Nat.le_refl k, ?_⟩
        rw [Nat.sub_self]
        rfl
      · obtain ⟨h1, h2'⟩ := ih (k + 1) p h2
        refine ⟨by omega, ?_⟩
        have hidx : p.1 - k = (p.1 - (k + 1)) + 1 := by omega
        rw [hidx]
        exact h2'

/-- Suppressed assignment of a raising expression keeps the varset. -/
theorem assign_suppressed_error (v : VarSet) (e : String) :
    assign_suppressed v (.error e) = v := rfl

/-- Suppressed assignment of a computed value succeeds exactly on a
type-correct value. -/
theorem assign_suppressed_okv (v : VarSet) (y : PyVal) :
    assign_suppressed v (.ok y) =
      if type_ok v.varType v.enumOptions y then { v with value := y } else v := by
  unfold assign_suppressed assign_value
  by_cases ht : type_ok v.varType v.enumOptions y <;> simp [ht]

/-- C6 (amended): migrating a variable between two list types converts the
whole list element-wise by the target element type — a string target
stringifies every element, an integer or float target parses every
element — and when any element fails to convert, the entire conversion
fails and the value is left at the target type's empty default: failing
elements are not dropped individually, and no error escapes the call. -/
theorem C6_list_to_list_conversion (supported : List String) (doc : Doc)
    (nm new_type : String) (v : VarSet) (data : List PyScalar)
    (hv : get_varset doc nm = some v)
    (hval : v.value = .vList data)
    (hsupp : supported.contains new_type = true)
    (hne : v.varType ≠ new_type)
    (hend1 : strEndsWith v.varType "List" = true)
    (hend2 : strEndsWith new_type "List" = true)
    (hnl1 : v.varType ≠ new_type ++ "List") (hnl2 : new_type ≠ v.varType ++ "List") :
    ∃ v2 : VarSet,
      set_var_type supported doc nm new_type none =
        (update_varset doc nm (fun _ => v2), .ok true) ∧
      v2.varType = new_type ∧
      (new_type = "App::PropertyStringList" →
        v2.value = .vList (data.map (fun e => .sStr (pyStrOfScalar e)))) ∧
      (new_type = "App::PropertyIntegerList" →
        (∀ ns, data.mapM pyIntOfScalar = .ok ns →
          v2.value = .vList (ns.map PyScalar.sInt)) ∧
        (∀ e, data.mapM pyIntOfScalar = .error e → v2.value = .vList [])) ∧
      (new_type = "App::PropertyFloatList" →
        (∀ qs, data.mapM pyFloatOfScalar = .ok qs →
          v2.value = .vList (qs.map PyScalar.sFloat)) ∧
        (∀ e, data.mapM pyFloatOfScalar = .error e → v2.value = .vList [])) := by
  have hres : set_var_type supported doc nm new_type none =
      (update_varset doc nm (fun _ =>
        assign_suppressed (replace_value_property v new_type)
          ((convert_list_type data new_type).map PyVal.vList)), .ok true) := by
    unfold set_var_type
    simp only [hv]
    rw [if_neg (by simpa using hsupp), if_neg hne, if_neg hnl1, if_neg hnl2,
      if_pos (by rw [hend1, hend2]; rfl), hval]
  refine ⟨_, hres, ?_, ?_, ?_, ?_⟩
  · -- the migrated type
    cases hconv : (convert_list_type data new_type).map PyVal.vList with
    | error e => rw [assign_suppressed_error]; rfl
    | ok y =>
        rw [assign_suppressed_okv]
        split <;> rfl
  · -- string target: total element-wise stringification
    intro hS
    subst hS
    have hc : convert_list_type data "App::PropertyStringList" =
        .ok (data.map (fun e => .sStr (pyStrOfScalar e))) := by
      unfold convert_list_type
      by_cases hd : data = []
      · subst hd; rfl
      · rw [if_neg hd]; rfl
    have hok : type_ok (replace_value_property v "App::PropertyStringList").varType
        (replace_value_property v "App::PropertyStringList").enumOptions
        (.vList (data.map (fun e => .sStr (pyStrOfScalar e)))) = true := by
      show (data.map (fun e => PyScalar.sStr (pyStrOfScalar e))).all
        (fun e => match e with | .sStr _ => true | _ => false) = true
      rw [List.all_map]
      exact List.all_eq_true.2 (fun x _ => rfl)
    rw [hc]
    simp only [Except.map]
    rw [assign_suppressed_okv, if_pos hok]
  · -- integer target: all-or-nothing parse
    intro hI
    subst hI
    constructor
    · intro ns hns
      have hc : convert_list_type data "App::PropertyIntegerList" =
          .ok (ns.map PyScalar.sInt) := by
        unfold convert_list_type
        by_cases hd : data = []
        · subst hd
          cases hns
          rfl
        · rw [if_neg hd, if_neg (by decide), if_pos rfl, hns]
          rfl
      have hok : type_ok (replace_value_property v "App::PropertyIntegerList").varType
          (replace_value_property v "App::PropertyIntegerList").enumOptions
          (.vList (ns.map PyScalar.sInt)) = true := by
        show (ns.map PyScalar.sInt).all
          (fun e => match e with | .sInt _ => true | .sBool _ => true | _ => false) = true
        refine List.all_eq_true.2 (fun x hx => ?_)
        obtain ⟨n, -, rfl⟩ := List.mem_map.mp hx
        rfl
      rw [hc]
      simp only [Except.map]
      rw [assign_suppressed_okv, if_pos hok]
    · intro e he
      have hd : data ≠ [] := by
        intro hd
        subst hd
        cases he
      have hc : convert_list_type data "App::PropertyIntegerList" = .error e := by
        unfold convert_list_type
        rw [if_neg hd, if_neg (by decide), if_pos rfl, he]
        rfl
      rw [hc]
      simp only [Except.map]
      rw [assign_suppressed_error]
      rfl
  · -- float target: all-or-nothing parse
    intro hF
    subst hF
    constructor
    · intro qs hqs
      have hc : convert_list_type data "App::PropertyFloatList" =
          .ok (qs.map PyScalar.sFloat) := by
        unfold convert_list_type
        by_cases hd : data = []
        · subst hd
          cases hqs
          rfl
        · rw [if_neg hd, if_neg (by decide), if_neg (by decide), if_pos rfl, hqs]
          rfl
      have hok : type_ok (replace_value_property v "App::PropertyFloatList").varType
          (replace_value_property v "App::PropertyFloatList").enumOptions
          (.vList (qs.map PyScalar.sFloat)) = true := by
        show (qs.map PyScalar.sFloat).all
          (fun e => match e with | .sFloat _ => true | .sInt _ => true | .sBool _ => true | _ => false) = true
        refine List.all_eq_true.2 (fun x hx => ?_)
        obtain ⟨q, -, rfl⟩ := List.mem_map.mp hx
        rfl
      rw [hc]
      simp only [Except.map]
      rw [assign_suppressed_okv, if_pos hok]
    · intro e he
      have hd : data ≠ [] := by
        intro hd
        subst hd
        cases he
      have hc : convert_list_type data "App::PropertyFloatList" = .error e := by
        unfold convert_list_type
        rw [if_neg hd, if_neg (by decide), if_neg (by decide), if_pos rfl, he]
        rfl
      rw [hc]
      simp only [Except.map]
      rw [assign_suppressed_error]
      rfl

/-- Witness for C6: converting the `["1", "x"]` string list to an integer
list yields the empty default. -/
theorem C6_list_to_list_conversion_witness :
    ∃ v2 : VarSet,
      set_var_type sampleSupported strListDoc "L" "App::PropertyIntegerList" none =
        (update_varset strListDoc "L" (fun _ => v2), .ok true) ∧
      v2.varType = "App::PropertyIntegerList" ∧
      ("App::PropertyIntegerList" = "App::PropertyStringList" →
        v2.value = .vList ([PyScalar.sStr "1", PyScalar.sStr "x"].map (fun e => .sStr (pyStrOfScalar e)))) ∧
      ("App::PropertyIntegerList" = "App::PropertyIntegerList" →
        (∀ ns, [PyScalar.sStr "1", PyScalar.sStr "x"].mapM pyIntOfScalar = .ok ns →
          v2.value = .vList (ns.map PyScalar.sInt)) ∧
        (∀ e, [PyScalar.sStr "1", PyScalar.sStr "x"].mapM pyIntOfScalar = .error e →
          v2.value = .vList [])) ∧
      ("App::PropertyIntegerList" = "App::PropertyFloatList" →
        (∀ qs, [PyScalar.sStr "1", PyScalar.sStr "x"].mapM pyFloatOfScalar = .ok qs →
          v2.value = .vList (qs.map PyScalar.sFloat)) ∧
        (∀ e, [PyScalar.sStr "1", PyScalar.sStr "x"].mapM pyFloatOfScalar = .error e →
          v2.value = .vList [])) :=
  C6_list_to_list_conversion sampleSupported strListDoc "L" "App::PropertyIntegerList"
    (mk_varset "XVar_0" "L" "Default" 0 0 "App::PropertyStringList"
      (.vList [.sStr "1", .sStr "x"]))
    [PyScalar.sStr "1", PyScalar.sStr "x"]
    (by decide) (by decide) (by decide) (by decide) (by decide) (by decide)
    (by decide) (by decide)

/-- C8 (amended): import processes unsupported-type records and records
whose name already exists with a different type as independent skips (with
a diagnostic, and the existing variable is not retyped), and a record whose
value fails its typed assignment is absorbed per record — the document only
takes the post-`try` property writes and the remaining records are still
processed; but import is not fully exception-safe: a record with a
supported type whose name is not a valid identifier raises from
`Variable.__init__` and aborts the processing of all subsequent records,
leaving the document as of the raise. -/
theorem C8_import_record_outcomes (supported : List String) (doc : Doc)
    (r : VarInfoData) (rest : List VarInfoData) :
    (¬ supported.contains r.type = true →
      import_variables supported (r :: rest) doc = import_variables supported rest doc) ∧
    (∀ e, supported.contains r.type = true → sanitize_var_name r.name = .error e →
      import_variables supported (r :: rest) doc = (doc, false)) ∧
    (∀ nm v0, supported.contains r.type = true → sanitize_var_name r.name = .ok nm →
      get_varset doc nm = some v0 → v0.varType ≠ r.type →
      import_variables supported (r :: rest) doc = import_variables supported rest doc) ∧
    (∀ nm v0 x e, supported.contains r.type = true → sanitize_var_name r.name = .ok nm →
      get_varset doc nm = some v0 → v0.varType = r.type →
      r.value = some x → truthyStrOpt r.expression = false →
      assign_value v0 x = .error e →
      import_variables supported (r :: rest) doc =
        import_variables supported rest
          (update_varset (update_varset (update_varset doc nm
              (fun v => set_read_only v r.read_only)) nm
            (fun v => { v with hidden := r.hidden })) nm
            (fun v => { v with sortKey := r.sort_key }))) := by
  refine ⟨?_, ?_, ?_, ?_⟩
  · intro hns
    have hrec : import_record supported doc r = .ok doc := by
      unfold import_record
      rw [if_pos hns]
    show (match import_record supported doc r with
        | .ok d2 => import_variables supported rest d2
        | .error _ => (doc, false)) = import_variables supported rest doc
    rw [hrec]
  · intro e hs herr
    have hrec : import_record supported doc r = .error e := by
      unfold import_record
      rw [if_neg (by simpa using hs)]
      simp only [herr]
    show (match import_record supported doc r with
        | .ok d2 => import_variables supported rest d2
        | .error _ => (doc, false)) = (doc, false)
    rw [hrec]
  · intro nm v0 hs hok hv0 hty
    have hrec : import_record supported doc r = .ok doc := by
      unfold import_record
      rw [if_neg (by simpa using hs)]
      simp only [hok, hv0]
      rw [if_pos (by simpa using hty)]
    show (match import_record supported doc r with
        | .ok d2 => import_variables supported rest d2
        | .error _ => (doc, false)) = import_variables supported rest doc
    rw [hrec]
  · intro nm v0 x e hs hok hv0 hty hval hexp hfail
    have htsv : try_set_value doc nm x = doc := by
      unfold try_set_value
      simp only [hv0, hfail]
    have hrec : import_record supported doc r = .ok
        (update_varset (update_varset (update_varset doc nm
            (fun v => set_read_only v r.read_only)) nm
          (fun v => { v with hidden := r.hidden })) nm
          (fun v => { v with sortKey := r.sort_key })) := by
      unfold import_record
      rw [if_neg (by simpa using hs)]
      simp only [hok, hv0]
      rw [if_neg (by simp [hty])]
      simp only [hval]
      rw [if_neg (by simp [hexp])]
      rw [htsv]
      simp only [hv0]
    show (match import_record supported doc r with
        | .ok d2 => import_variables supported rest d2
        | .error _ => (doc, false)) = _
    rw [hrec]

/-- Witness for C8: on an empty document, an unsupported-type record is
skipped, an invalid-name record aborts, and a type-mismatching record is
skipped; a record whose value fails assignment is absorbed, the run keeping
only its property writes. -/
theorem C8_import_record_outcomes_witness :
    (import_variables sampleSupported
        [⟨"Nope", "X", none, "", "", "Default", none, none, false, false, 0⟩, recGood]
        emptyDoc =
      import_variables sampleSupported [recGood] emptyDoc) ∧
    (import_variables sampleSupported [recBadName, recGood] emptyDoc = (emptyDoc, false)) ∧
    (import_variables sampleSupported
        [⟨"App::PropertyString", "L", none, "", "", "Default", none, none, false, false, 0⟩]
        strListDoc =
      import_variables sampleSupported [] strListDoc) ∧
    (import_variables sampleSupported
        [⟨"App::PropertyStringList", "L", some (.scalar (.sInt 5)), "", "", "Default",
          none, none, false, false, 7⟩]
        strListDoc =
      import_variables sampleSupported []
        (update_varset (update_varset (update_varset strListDoc "L"
            (fun v => set_read_only v false)) "L"
          (fun v => { v with hidden := false })) "L"
          (fun v => { v with sortKey := 7 }))) :=
  ⟨(C8_import_record_outcomes sampleSupported emptyDoc
      ⟨"Nope", "X", none, "", "", "Default", none, none, false, false, 0⟩ [recGood]).1
      (by decide),
   (C8_import_record_outcomes sampleSupported emptyDoc recBadName [recGood]).2.1
      ("Invalid var name: " ++ "1bad") (by decide) (by decide),
   (C8_import_record_outcomes sampleSupported strListDoc
      ⟨"App::PropertyString", "L", none, "", "", "Default", none, none, false, false, 0⟩ []).2.2.1
      "L" (mk_varset "XVar_0" "L" "Default" 0 0 "App::PropertyStringList"
        (.vList [.sStr "1", .sStr "x"]))
      (by decide) (by decide) (by decide) (by decide),
   (C8_import_record_outcomes sampleSupported strListDoc
      ⟨"App::PropertyStringList", "L", some (.scalar (.sInt 5)), "", "", "Default",
        none, none, false, false, 7⟩ []).2.2.2
      "L" (mk_varset "XVar_0" "L" "Default" 0 0 "App::PropertyStringList"
        (.vList [.sStr "1", .sStr "x"]))
      (.scalar (.sInt 5)) "TypeError: value does not match property type"
      (by decide) (by decide) (by decide) (by decide) (by decide) (by decide) (by decide)⟩

/-- C2 (amended): every successful `create_var` call appends exactly one
varset to the document and gives the new variable row key 0 — it is not
appended after the pre-existing members of its group; among other key-0
variables it is ordered by name. -/
theorem C2_create_var_rowkey_always_zero (doc : Doc) (name var_type : String)
    (value : Option PyVal) (options : Option (List String)) (description : String)
    (expression : Option String) (group : String) (d2 : Doc)
    (h : create_var doc name var_type value options description expression group =
      .ok (d2, true)) :
    ∃ v : VarSet, d2.objects = doc.objects ++ [v] ∧ v.sortKey = 0 := by
  obtain ⟨v, h1, h2, -, -, -⟩ := create_var_ok_shape _ _ _ _ _ _ _ _ _ h
  exact ⟨v, h1, h2⟩

/-- Witness for C2: creating `A` in an empty document yields row key 0. -/
theorem C2_create_var_rowkey_always_zero_witness :
    ∃ v : VarSet,
      (((create_var emptyDoc "A" "App::PropertyInteger" none none "" none
          "Default").toOption.getD (emptyDoc, false)).1).objects =
        emptyDoc.objects ++ [v] ∧ v.sortKey = 0 :=
  C2_create_var_rowkey_always_zero emptyDoc "A" "App::PropertyInteger" none none "" none
    "Default" _ (by decide)

/-- C9: when `n1` and `n2` are valid (stripped) identifiers that agree up
to letter case, a successful creation of `n1` makes a subsequent
`create_var` for `n2` return `False` and leave the document unchanged. -/
theorem C9_case_insensitive_create (doc : Doc) (n1 n2 var_type var_type2 : String)
    (value value2 : Option PyVal) (options options2 : Option (List String))
    (description description2 : String) (expression expression2 : Option String)
    (group group2 : String) (d1 : Doc)
    (hid1 : isIdentifier n1 = true) (hstr1 : pyStrip n1 = n1)
    (hid2 : isIdentifier n2 = true) (hstr2 : pyStrip n2 = n2)
    (hlow : pyLower n1 = pyLower n2) (_hne : n1 ≠ n2)
    (hfst : create_var doc n1 var_type value options description expression group =
      .ok (d1, true)) :
    create_var d1 n2 var_type2 value2 options2 description2 expression2 group2 =
      .ok (d1, false) := by
  obtain ⟨v, hobj, -, hlab, hintn, -⟩ := create_var_ok_shape _ _ _ _ _ _ _ _ _ hfst
  have hlabv : v.label = n1 := by
    rw [sanitize_fixed n1 hid1 hstr1] at hlab
    exact (Except.ok.injEq _ _).mp hlab.symm
  have hvar : is_var v = true := by
    unfold is_var
    rw [hintn]
    exact strStartsWith_append _ _
  have hfound : truthyStrOpt (existing_var_name d1 n2) = true := by
    unfold existing_var_name
    have hsome : ((d1.objects.find? (fun o => is_var o && pyLower o.label = pyLower n2))).isSome := by
      rw [List.find?_isSome]
      refine ⟨v, ?_, ?_⟩
      · rw [hobj]; exact List.mem_append_right _ (List.mem_singleton.mpr rfl)
      · simp [hvar, hlabv, hlow]
    obtain ⟨o, ho⟩ := Option.isSome_iff_exists.mp hsome
    have hpo := List.find?_some ho
    have holab : pyLower o.label = pyLower n2 := by
      simp only [Bool.and_eq_true, decide_eq_true_eq] at hpo
      exact hpo.2
    have hone : o.label ≠ "" := by
      intro he
      have : pyLower n2 ≠ "" := pyLower_ne_empty n2 (isIdentifier_ne_empty n2 hid2)
      rw [he] at holab
      exact this (holab.symm ▸ rfl)
    rw [ho]
    simp [truthyStrOpt, hone]
  unfold create_var
  rw [sanitize_fixed n2 hid2 hstr2]
  simp [hfound]

/-- Witness for C9: `Alpha` then `alpha` on an empty document — the second
call returns `False` without adding an object. -/
theorem C9_case_insensitive_create_witness :
    create_var
        ((create_var emptyDoc "Alpha" "App::PropertyInteger" none none "" none
          "Default").toOption.getD (emptyDoc, false)).1
        "alpha" "App::PropertyInteger" none none "" none "Default" =
      .ok (((create_var emptyDoc "Alpha" "App::PropertyInteger" none none "" none
          "Default").toOption.getD (emptyDoc, false)).1, false) :=
  C9_case_insensitive_create emptyDoc "Alpha" "alpha" "App::PropertyInteger"
    "App::PropertyInteger" none none none none "" "" none none "Default" "Default" _
    (by decide) (by decide) (by decide) (by decide) (by decide) (by decide) (by decide)

/-- C10: `set_var_type` on an existing variable raises `ValueError` when
the requested type is not supported by the host, leaving the document (and
so the variable's type and value) unchanged; on a missing variable it
returns `False` without raising. -/
theorem C10_set_var_type_errors (supported : List String) (doc : Doc)
    (name new_type : String) (conv : Option (PyVal → Except String PyVal)) :
    (∀ v, get_varset doc name = some v → ¬ supported.contains new_type = true →
      set_var_type supported doc name new_type conv =
        (doc, .error ("Invalid var type: " ++ new_type))) ∧
    (get_varset doc name = none →
      set_var_type supported doc name new_type conv = (doc, .ok false)) := by
  constructor
  · intro v hv hns
    unfold set_var_type
    rw [hv]
    exact if_pos hns
  · intro hnone
    unfold set_var_type
    rw [hnone]

/-- Witness for C10: an unsupported target type raises; a missing variable
returns `False`. -/
theorem C10_set_var_type_errors_witness :
    (set_var_type sampleSupported strListDoc "L" "App::PropertyNope" none =
      (strListDoc, .error ("Invalid var type: " ++ "App::PropertyNope"))) ∧
    (set_var_type sampleSupported strListDoc "Missing" "App::PropertyString" none =
      (strListDoc, .ok false)) :=
  ⟨(C10_set_var_type_errors sampleSupported strListDoc "L" "App::PropertyNope" none).1
      (mk_varset "XVar_0" "L" "Default" 0 0 "App::PropertyStringList"
        (.vList [.sStr "1", .sStr "x"])) (by decide) (by decide),
   (C10_set_var_type_errors sampleSupported strListDoc "Missing" "App::PropertyString"
      none).2 (by decide)⟩

/-- C1 (amended): after `Variable.reorder`, the row keys of the moved
variable's group form the dense set `{0, …, n-1}` exactly when the moved
variable does not land in the last slot; when the target position falls at
or past the last remaining member — in particular whenever the group has a
single member — the moved variable receives row key `n` (not `n-1`), so the
group's keys are `{0, …, n-2} ∪ {n}`. -/
theorem C1_reorder_rowkeys_amended (doc : Doc) (iname : String) (delta : ExtInt)
    (self : VarSet)
    (hfind : doc.objects.find? (fun o => o.internalName = iname) = some self)
    (hvar : is_var self = true)
    (hnd : (doc.objects.map VarSet.internalName).Nodup) :
    group_row_keys (Variable.reorder doc iname delta) (groupOf self) =
      if group_size doc (groupOf self) = 1 ∨
          seekGe (seekOf ((row_rank doc (groupOf self) iname : Nat) : Int) delta)
            ((group_size doc (groupOf self) : Int) - 1) = true
      then last_slot_keys (group_size doc (groupOf self))
      else dense_range (group_size doc (groupOf self)) := by
  obtain ⟨self', others', hperm, hname, hgrp, hkey, hoth, hkeys⟩ :=
    reorder_members doc iname delta self hfind hvar hnd
  have hself_mem : self ∈ doc.objects := List.mem_of_find?_eq_some hfind
  have hmem_self : self ∈ doc.objects.filter
      (fun o => is_var o && groupOf o = groupOf self) :=
    List.mem_filter.mpr ⟨hself_mem, by simp [hvar]⟩
  have hn1 : 1 ≤ group_size doc (groupOf self) := by
    have hpos := List.length_pos.mpr (List.ne_nil_of_mem hmem_self)
    unfold group_size
    omega
  have hcond : (reorder_trig_point doc (groupOf self) iname delta = none) ↔
      (group_size doc (groupOf self) = 1 ∨
        seekGe (seekOf ((row_rank doc (groupOf self) iname : Nat) : Int) delta)
          ((group_size doc (groupOf self) : Int) - 1) = true) := by
    unfold reorder_trig_point
    rw [firstTrigAbs_none_iff]
    have hcast : (((group_size doc (groupOf self) - 1 : Nat)) : Int) =
        (group_size doc (groupOf self) : Int) - 1 := by
      omega
    rw [hcast]
    constructor
    · rintro (h | h)
      · exact Or.inl (by omega)
      · exact Or.inr h
    · rintro (h | h)
      · exact Or.inl (by omega)
      · exact Or.inr h
  have hpk : (((Variable.reorder doc iname delta).objects.filter
      (fun o => is_var o && groupOf o = groupOf self)).map (fun o => o.sortKey)).Perm
      (self'.sortKey :: others'.map VarSet.sortKey) :=
    hperm.map (fun o => o.sortKey)
  unfold group_row_keys
  rw [Multiset.coe_eq_coe.mpr hpk, hkey, hkeys]
  cases htp : reorder_trig_point doc (groupOf self) iname delta with
  | none =>
      rw [if_pos (hcond.mp htp), last_slot_keys_coe]
      refine Multiset.coe_eq_coe.mpr ?_
      have hmc : (List.range (group_size doc (groupOf self) - 1)).map
          (reorder_shift none) =
          (List.range (group_size doc (groupOf self) - 1)).map (fun (k : Nat) => (k : Int)) :=
        List.map_congr_left (fun k _ => rfl)
      rw [hmc]
      exact (List.perm_append_singleton _ _).symm
  | some t =>
      rw [if_neg (fun hc => by
        have h0 := hcond.mpr hc
        rw [htp] at h0
        exact Option.noConfusion h0)]
      rw [dense_range_coe]
      refine Multiset.coe_eq_coe.mpr ?_
      have hb := firstTrigAbs_bounds
        (seekOf ((row_rank doc (groupOf self) iname : Nat) : Int) delta)
        (group_size doc (groupOf self) - 1) 0 t htp
      have ht : t ≤ group_size doc (groupOf self) - 1 := by omega
      have hp := (shift_insert_perm (group_size doc (groupOf self) - 1) t ht).map
        (fun (k : Nat) => (k : Int))
      rw [List.map_append, List.map_map] at hp
      simp only [List.map_cons, List.map_nil] at hp
      have hfun : ((fun (k : Nat) => (k : Int)) ∘ (fun k => if t ≤ k then k + 1 else k)) =
          reorder_shift (some t) := by
        funext k
        show (((if t ≤ k then k + 1 else k) : Nat) : Int) = reorder_shift (some t) k
        by_cases h : t ≤ k
        · rw [if_pos h]
          show ((k + 1 : Nat) : Int) = if t ≤ k then (k : Int) + 1 else (k : Int)
          rw [if_pos h]
          omega
        · rw [if_neg h]
          show ((k : Nat) : Int) = if t ≤ k then (k : Int) + 1 else (k : Int)
          rw [if_neg h]
      rw [hfun] at hp
      have hn : group_size doc (groupOf self) - 1 + 1 = group_size doc (groupOf self) := by
        omega
      rw [hn] at hp
      refine List.Perm.trans ?_ hp
      exact (List.perm_append_singleton _ _).symm

/-- Witness for C1: moving the first of three variables down by one lands
it strictly inside the group, so the keys stay dense. -/
theorem C1_reorder_rowkeys_amended_witness :
    group_row_keys (Variable.reorder threeDoc "XVar_0" (.fin 1))
        (groupOf (mk_int_var "XVar_0" "A" "Default" 0 0)) =
      if group_size threeDoc (groupOf (mk_int_var "XVar_0" "A" "Default" 0 0)) = 1 ∨
          seekGe (seekOf ((row_rank threeDoc
              (groupOf (mk_int_var "XVar_0" "A" "Default" 0 0)) "XVar_0" : Nat) : Int)
            (.fin 1))
            ((group_size threeDoc (groupOf (mk_int_var "XVar_0" "A" "Default" 0 0)) : Int)
              - 1) = true
      then last_slot_keys (group_size threeDoc
        (groupOf (mk_int_var "XVar_0" "A" "Default" 0 0)))
      else dense_range (group_size threeDoc
        (groupOf (mk_int_var "XVar_0" "A" "Default" 0 0))) :=
  C1_reorder_rowkeys_amended threeDoc "XVar_0" (.fin 1)
    (mk_int_var "XVar_0" "A" "Default" 0 0) (by decide) (by decide) (by decide)

/-- C5: reordering with the negative-infinity sentinel always gives the
variable rank 0 in its group's `(key, name)` order, and the positive-
infinity sentinel always gives it the last rank, from any starting
position. -/
theorem C5_reorder_sentinel_ranks (doc : Doc) (iname : String) (self : VarSet)
    (hfind : doc.objects.find? (fun o => o.internalName = iname) = some self)
    (hvar : is_var self = true)
    (hnd : (doc.objects.map VarSet.internalName).Nodup) :
    row_rank (Variable.reorder doc iname .negInf) (groupOf self) iname = 0 ∧
    row_rank (Variable.reorder doc iname .posInf) (groupOf self) iname =
      group_size doc (groupOf self) - 1 := by
  constructor
  · rw [reorder_rank doc iname .negInf self hfind hvar hnd]
    cases hm0 : group_size doc (groupOf self) - 1 with
    | zero =>
        rfl
    | succ m =>
        have htp : reorder_trig_point doc (groupOf self) iname .negInf = some 0 := by
          unfold reorder_trig_point
          rw [hm0]
          rfl
        rw [htp, List.countP_map]
        refine List.countP_eq_zero.mpr ?_
        intro k hk
        simp only [Function.comp_apply, decide_eq_true_eq]
        show ¬ (if 0 ≤ k then (k : Int) + 1 else (k : Int)) < ((0 : Nat) : Int)
        rw [if_pos (Nat.zero_le k)]
        omega
  · rw [reorder_rank doc iname .posInf self hfind hvar hnd]
    have htp : reorder_trig_point doc (groupOf self) iname .posInf = none :=
      (firstTrigAbs_none_iff
        (seekOf ((row_rank doc (groupOf self) iname : Nat) : Int) .posInf)
        (group_size doc (groupOf self) - 1)).mpr (Or.inr rfl)
    rw [htp, List.countP_map]
    conv_rhs => rw [← List.length_range (group_size doc (groupOf self) - 1)]
    refine List.countP_eq_length.mpr ?_
    intro k hk
    rw [List.mem_range] at hk
    simp only [Function.comp_apply, decide_eq_true_eq]
    show (k : Int) < (group_size doc (groupOf self) : Int)
    omega

/-- Witness for C5: the middle of three variables jumps to the first rank
with the negative sentinel and to the last rank with the positive one. -/
theorem C5_reorder_sentinel_ranks_witness :
    row_rank (Variable.reorder threeDoc "XVar_1" .negInf)
        (groupOf (mk_int_var "XVar_1" "B" "Default" 1 0)) "XVar_1" = 0 ∧
    row_rank (Variable.reorder threeDoc "XVar_1" .posInf)
        (groupOf (mk_int_var "XVar_1" "B" "Default" 1 0)) "XVar_1" =
      group_size threeDoc (groupOf (mk_int_var "XVar_1" "B" "Default" 1 0)) - 1 :=
  C5_reorder_sentinel_ranks threeDoc "XVar_1" (mk_int_var "XVar_1" "B" "Default" 1 0)
    (by decide) (by decide) (by decide)

/-- C3 (amended): when the clamped target position differs from the moved
group's current rank, `reorder_group` gives every variable its group's
index in the new order, so the group keys form the dense set `{0, …, m-1}`
and the moved group's rank equals `clamp(old_rank + delta, 0, m-1)`; but
when the clamped target equals the current rank the function returns the
document unchanged, leaving any sparse legacy keys in place. -/
theorem C3_reorder_group_amended (doc : Doc) (gname : String) (delta : ExtInt)
    (cur_item : Nat × (String × Int))
    (hfind : (stable_sort group_le (groupsData (doc.objects.filter is_var))).enum.find?
      (fun p => p.2.1 = gname) = some cur_item) :
    (clamped_target cur_item.1 (groupsData (doc.objects.filter is_var)).length delta =
        cur_item.1 →
      reorder_group doc gname delta = (doc, false)) ∧
    (clamped_target cur_item.1 (groupsData (doc.objects.filter is_var)).length delta ≠
        cur_item.1 →
      group_keys (reorder_group doc gname delta).1 =
        dense_range (groupsData (doc.objects.filter is_var)).length ∧
      group_rank (reorder_group doc gname delta).1 gname =
        clamped_target cur_item.1 (groupsData (doc.objects.filter is_var)).length delta) := by
  set gd := groupsData (doc.objects.filter is_var) with hgd
  set sorted := stable_sort group_le gd with hsortedd
  have hpermsort : sorted.Perm gd := stable_sort_perm group_le gd
  have hglen : sorted.length = gd.length := hpermsort.length_eq
  have hndgd : (gd.map Prod.fst).Nodup := by
    rw [hgd]
    exact groupsData_names_nodup _
  have hndsorted : (sorted.map Prod.fst).Nodup :=
    ((hpermsort.map Prod.fst).nodup_iff).mpr hndgd
  have hxname : cur_item.2.1 = gname := by simpa using List.find?_some hfind
  have hxmem : cur_item ∈ sorted.enum := List.mem_of_find?_eq_some hfind
  have hget : sorted.get? cur_item.1 = some cur_item.2 := by
    have h := mem_enumFrom_get sorted 0 cur_item hxmem
    simpa using h.2
  have hne_gd : gd ≠ [] := by
    intro h0
    rw [hsortedd, h0] at hfind
    exact Option.noConfusion hfind
  have hmge1 : 1 ≤ gd.length := List.length_pos.mpr hne_gd
  constructor
  · intro heq
    unfold reorder_group
    simp only []
    rw [← hgd, if_neg hne_gd, ← hsortedd, hfind]
    simp only []
    rw [new_pos_eq_clamped cur_item.1 sorted.length delta, hglen]
    rw [if_pos heq]
  · intro hmove
    have hclamp_le : clamped_target cur_item.1 gd.length delta ≤ gd.length - 1 := by
      cases delta with
      | negInf =>
          show (0 : Nat) ≤ gd.length - 1
          omega
      | posInf =>
          show gd.length - 1 ≤ gd.length - 1
          omega
      | fin d =>
          show (max 0 (min ((cur_item.1 : Int) + d) ((gd.length : Int) - 1))).toNat ≤
            gd.length - 1
          omega
    have hres : reorder_group doc gname delta =
        ({ doc with objects := doc.objects.map (fun o =>
            if is_var o then
              match (((sorted.eraseIdx cur_item.1).insertIdx
                  (clamped_target cur_item.1 gd.length delta) cur_item.2).enum.find?
                  (fun p => p.2.1 = groupOf o)) with
              | some p => { o with groupSortKey := ((p.1 : Nat) : Int) }
              | none => o
            else o) },
          doc.objects.any (fun o => is_var o &&
            match (((sorted.eraseIdx cur_item.1).insertIdx
                (clamped_target cur_item.1 gd.length delta) cur_item.2).enum.find?
                (fun p => p.2.1 = groupOf o)) with
            | some p => o.groupSortKey != ((p.1 : Nat) : Int)
            | none => false)) := by
      unfold reorder_group
      simp only []
      rw [← hgd, if_neg hne_gd, ← hsortedd, hfind]
      simp only []
      rw [new_pos_eq_clamped cur_item.1 sorted.length delta, hglen]
      rw [if_neg hmove]
    set npos := clamped_target cur_item.1 gd.length delta with hnpos
    set NO := (sorted.eraseIdx cur_item.1).insertIdx npos cur_item.2 with hNO
    set F := (fun o : VarSet => if is_var o then
        match NO.enum.find? (fun p => p.2.1 = groupOf o) with
        | some p => { o with groupSortKey := ((p.1 : Nat) : Int) }
        | none => o
      else o) with hF
    have hercons : (cur_item.2 :: sorted.eraseIdx cur_item.1).Perm sorted :=
      eraseIdx_cons_perm sorted cur_item.1 cur_item.2 hget
    have herlen : (sorted.eraseIdx cur_item.1).length = gd.length - 1 := by
      have h1 := hercons.length_eq
      simp only [List.length_cons] at h1
      omega
    have hnposle : npos ≤ (sorted.eraseIdx cur_item.1).length := by
      rw [herlen]
      exact hclamp_le
    have hNOperm : NO.Perm sorted := by
      rw [hNO]
      exact (perm_insertIdx cur_item.2 npos _ hnposle).trans hercons
    have hNOgd : NO.Perm gd := hNOperm.trans hpermsort
    have hNOnames : (NO.map Prod.fst).Nodup := ((hNOgd.map Prod.fst).nodup_iff).mpr hndgd
    have hNOlen : NO.length = gd.length := hNOgd.length_eq
    have hgER : gname ∉ (sorted.eraseIdx cur_item.1).map Prod.fst := by
      have hnd2 := (hercons.map Prod.fst).nodup_iff.mpr hndsorted
      rw [List.map_cons] at hnd2
      have h3 := (List.nodup_cons.mp hnd2).1
      rw [hxname] at h3
      exact h3
    have hfNO : NO.enum.find? (fun p => p.2.1 = gname) = some (npos, cur_item.2) := by
      have h := enumFrom_find_insertIdx gname cur_item.2 hxname npos
        (sorted.eraseIdx cur_item.1) 0 hnposle hgER
      simpa using h
    set K := (fun n : String => match NO.enum.find? (fun p => p.2.1 = n) with
      | some p => ((p.1 : Nat) : Int)
      | none => (0 : Int)) with hK
    have hFiv : ∀ o, is_var (F o) = is_var o := by
      intro o
      rw [hF]
      simp only []
      by_cases hv : is_var o
      · rw [if_pos hv]
        cases NO.enum.find? (fun p => p.2.1 = groupOf o) with
        | none => rfl
        | some p => rfl
      · rw [if_neg hv]
    have hFg : ∀ o, groupOf (F o) = groupOf o := by
      intro o
      rw [hF]
      simp only []
      by_cases hv : is_var o
      · rw [if_pos hv]
        cases NO.enum.find? (fun p => p.2.1 = groupOf o) with
        | none => rfl
        | some p => rfl
      · rw [if_neg hv]
    have hk : ∀ o ∈ doc.objects.filter is_var, (F o).groupSortKey = K (groupOf o) := by
      intro o ho
      have hv : is_var o := List.of_mem_filter ho
      rw [hF]
      simp only []
      rw [if_pos hv]
      cases hc : NO.enum.find? (fun p => p.2.1 = groupOf o) with
      | some p =>
          simp only [hK]
          rw [hc]
      | none =>
          exfalso
          have hmem : groupOf o ∈ gd.map Prod.fst := by
            by_contra hnm
            have h0 : gd.lookup (groupOf o) = none := (lookup_none_iff _ gd).mpr hnm
            have hsome := groupsData_lookup_complete (doc.objects.filter is_var)
              (groupOf o) o ho rfl
            rw [hgd] at h0
            rw [h0] at hsome
            exact Bool.noConfusion hsome
          have hmemNO : groupOf o ∈ NO.map Prod.fst :=
            ((hNOgd.map Prod.fst).mem_iff).mpr hmem
          have hs := enumFrom_find_isSome (groupOf o) NO 0 hmemNO
          have hc' : (NO.enumFrom 0).find? (fun p => p.2.1 = groupOf o) = none := hc
          rw [hc'] at hs
          exact Bool.noConfusion hs
    have hgd2 : groupsData ((doc.objects.map F).filter is_var) =
        gd.map (fun p => (p.1, K p.1)) := by
      rw [filter_map_is_var F hFiv]
      rw [groupsData_map_key K F hFg _ hk]
    have hmapK : NO.map (fun p : String × Int => K p.1) =
        (List.range NO.length).map (fun i => ((0 + i : Nat) : Int)) :=
      map_find_enumFrom (fun _ => 0) NO 0 hNOnames
    have hKg : K gname = ((npos : Nat) : Int) := by
      simp only [hK]
      rw [hfNO]
    constructor
    · rw [hres]
      show ((groupsData ((doc.objects.map F).filter is_var)).map (fun p => p.2) :
        Multiset Int) = dense_range gd.length
      rw [hgd2, List.map_map, dense_range_coe]
      refine Multiset.coe_eq_coe.mpr ?_
      have hcomp : ((fun p : String × Int => p.2) ∘
          (fun p : String × Int => (p.1, K p.1))) = (fun p : String × Int => K p.1) := rfl
      rw [hcomp]
      refine (hNOgd.symm.map _).trans ?_
      rw [hmapK, hNOlen]
      have heq2 : (List.range gd.length).map (fun i => ((0 + i : Nat) : Int)) =
          (List.range gd.length).map (fun (k : Nat) => (k : Int)) := by
        refine List.map_congr_left (fun i _ => ?_)
        show ((0 + i : Nat) : Int) = ((i : Nat) : Int)
        congr 1
        omega
      rw [heq2]
    · rw [hres]
      show (stable_sort group_le (groupsData ((doc.objects.map F).filter is_var))).findIdx
          (fun p => p.1 = gname) = npos
      rw [hgd2]
      have hgmem : gname ∈ gd.map Prod.fst := by
        have h1 : cur_item.2 ∈ sorted := List.get?_mem hget
        have h2 : cur_item.2 ∈ gd := hpermsort.subset h1
        rw [← hxname]
        exact List.mem_map_of_mem Prod.fst h2
      obtain ⟨p0, hp0mem, hp0⟩ : ∃ p0 ∈ gd, p0.1 = gname := by
        obtain ⟨p0, h, he⟩ := List.mem_map.mp hgmem
        exact ⟨p0, h, he⟩
      have hx : ((gname, K gname) : String × Int) ∈ gd.map (fun p => (p.1, K p.1)) := by
        refine List.mem_map.mpr ⟨p0, hp0mem, ?_⟩
        rw [hp0]
      have hinj : ∀ y ∈ gd.map (fun p => (p.1, K p.1)),
          y.2 = ((gname, K gname) : String × Int).2 → y = (gname, K gname) := by
        intro y hy hk2
        obtain ⟨q, hq, rfl⟩ := List.mem_map.mp hy
        have hqmem : q.1 ∈ NO.map Prod.fst :=
          ((hNOgd.map Prod.fst).mem_iff).mpr (List.mem_map_of_mem Prod.fst hq)
        have hsome := enumFrom_find_isSome q.1 NO 0 hqmem
        cases hc : (NO.enumFrom 0).find? (fun p => p.2.1 = q.1) with
        | none =>
            rw [hc] at hsome
            exact absurd hsome (by simp)
        | some r =>
            have hc2 : NO.enum.find? (fun p => p.2.1 = q.1) = some r := hc
            have hKq : K q.1 = ((r.1 : Nat) : Int) := by
              simp only [hK]
              rw [hc2]
            have hkk : K q.1 = K gname := hk2
            have hr1 : r.1 = npos := by
              rw [hKq, hKg] at hkk
              omega
            have hmr := mem_enumFrom_get NO 0 r (List.mem_of_find?_eq_some hc)
            have hpr : r.2.1 = q.1 := by simpa using List.find?_some hc2
            have hfNO' : (NO.enumFrom 0).find? (fun p => p.2.1 = gname) =
                some (npos, cur_item.2) := hfNO
            have hmc := mem_enumFrom_get NO 0 (npos, cur_item.2)
              (List.mem_of_find?_eq_some hfNO')
            have hg1 : NO.get? (r.1 - 0) = some r.2 := hmr.2
            have hg2 : NO.get? (npos - 0) = some cur_item.2 := hmc.2
            rw [hr1] at hg1
            rw [hg1] at hg2
            have hr2 : r.2 = cur_item.2 := by
              injection hg2
            have hq1 : q.1 = gname := by
              rw [← hpr, hr2, hxname]
            rw [hq1]
      have huniq : ∀ y ∈ gd.map (fun p => (p.1, K p.1)),
          y.1 = gname → y = (gname, K gname) := by
        intro y hy h1
        obtain ⟨q, hq, rfl⟩ := List.mem_map.mp hy
        have hq1 : q.1 = gname := h1
        rw [hq1]
      have hfidx := group_rank_of_distinct_key (gd.map (fun p => (p.1, K p.1)))
        (gname, K gname) gname hx rfl hinj huniq
      rw [hfidx, List.countP_map]
      rw [← hNOgd.countP_eq]
      have hstep : NO.countP ((fun y : String × Int =>
          decide (y.2 < ((gname, K gname) : String × Int).2)) ∘
          (fun p : String × Int => (p.1, K p.1))) =
          (NO.map (fun p : String × Int => K p.1)).countP
            (fun v : Int => decide (v < K gname)) := by
        rw [List.countP_map]
        exact countP_pointwise _ _ NO (fun a _ => rfl)
      rw [hstep, hmapK, List.countP_map]
      have hpt : ((fun v : Int => decide (v < K gname)) ∘
          (fun i : Nat => ((0 + i : Nat) : Int))) =
          (fun i : Nat => decide (i < npos)) := by
        funext i
        show decide (((0 + i : Nat) : Int) < K gname) = decide (i < npos)
        rw [hKg]
        exact decide_eq_decide.mpr (by omega)
      rw [hpt, countP_range_lt, hNOlen]
      omega

/-- Witness for C3: moving `Alpha` down by one past `Beta` renumbers both
groups densely and lands `Alpha` at rank 1. -/
theorem C3_reorder_group_amended_witness :
    (clamped_target ((0, ("Alpha", (0 : Int))) : Nat × (String × Int)).1
        (groupsData (twoGroupsDoc.objects.filter is_var)).length (.fin 1) =
        ((0, ("Alpha", (0 : Int))) : Nat × (String × Int)).1 →
      reorder_group twoGroupsDoc "Alpha" (.fin 1) = (twoGroupsDoc, false)) ∧
    (clamped_target ((0, ("Alpha", (0 : Int))) : Nat × (String × Int)).1
        (groupsData (twoGroupsDoc.objects.filter is_var)).length (.fin 1) ≠
        ((0, ("Alpha", (0 : Int))) : Nat × (String × Int)).1 →
      group_keys (reorder_group twoGroupsDoc "Alpha" (.fin 1)).1 =
        dense_range (groupsData (twoGroupsDoc.objects.filter is_var)).length ∧
      group_rank (reorder_group twoGroupsDoc "Alpha" (.fin 1)).1 "Alpha" =
        clamped_target ((0, ("Alpha", (0 : Int))) : Nat × (String × Int)).1
          (groupsData (twoGroupsDoc.objects.filter is_var)).length (.fin 1)) :=
  C3_reorder_group_amended twoGroupsDoc "Alpha" (.fin 1) (0, ("Alpha", 0)) (by decide)

end Vars
